import Mathlib

/-! dice_anim: a rotating icosahedron drawn as ASCII art

Shallow embedding of `src/dice.go` and the properties of its geometry table,
projector, rotations and rasteriser.

Modelling conventions

* Go `int` is the 64-bit signed integer: a value is an `Int` `n` with
  `IsInt64 n`, and every addition, subtraction, multiplication and negation of
  `drawLine` is followed by `wrap64`, the two's complement wrap-around.  Vertex
  indices, which are literals `0..11` used only as slice indices, are `Nat`.
* `float64(d)` of an `int` `d` is `float64OfInt d`: exact up to `2^53`, beyond
  that rounded to 53 significant bits, ties to even.
* The `float64` coordinates of points are real numbers: `math.Sin`,
  `math.Cos`, `math.Tan`, `math.Sqrt` and `math.Pi` are the real functions and
  the real constant, and no rounding error is modelled there.
* `[][]rune` is a list of rows; an index that is out of range is the fault
  `Fault.indexOutOfRange` (the run-time panic of Go).
* The unbounded `for` loop of `drawLine` takes a fuel argument; running out of
  fuel is the fault `Fault.outOfFuel`.
-/

set_option maxRecDepth 100000

namespace DiceAnim

/-! ## Constants -/

/-- Constant `screenWidth` of the source. -/
def screenWidth : Int := 80

/-- Constant `screenHeight` of the source. -/
def screenHeight : Int := 30

/-! ## Geometry tables of `main` -/

/-- A face `[3]int`: three vertex indices. -/
structure Face where
  v0 : Nat
  v1 : Nat
  v2 : Nat
  deriving DecidableEq, Repr

/-- Indexing `f[i]` of a `[3]int` for `i` in `0..2`. -/
def Face.idx (f : Face) (i : Nat) : Nat :=
  match i with
  | 0 => f.v0
  | 1 => f.v1
  | _ => f.v2

/-- The face list `faces` of `main`. -/
def faces : List Face :=
  [⟨0, 1, 4⟩, ⟨0, 4, 8⟩, ⟨0, 8, 2⟩, ⟨0, 2, 9⟩, ⟨0, 9, 6⟩,
   ⟨1, 10, 4⟩, ⟨4, 10, 5⟩, ⟨4, 5, 8⟩, ⟨8, 5, 3⟩, ⟨8, 3, 2⟩,
   ⟨2, 3, 7⟩, ⟨2, 7, 9⟩, ⟨9, 7, 11⟩, ⟨9, 11, 6⟩, ⟨6, 11, 1⟩,
   ⟨1, 11, 10⟩, ⟨10, 11, 7⟩, ⟨10, 7, 5⟩, ⟨5, 7, 3⟩, ⟨6, 1, 0⟩]

/-- The key stored for the side `(a, b)`: `if a > b { a, b = b, a }`. -/
def canonEdge (a b : Nat) : Nat × Nat :=
  if a > b then (b, a) else (a, b)

/-- The inner loop `for i := 0; i < 3; i++` over one face: the three keys it
stores, in the order it stores them. -/
def faceEdges (f : Face) : List (Nat × Nat) :=
  (List.range 3).map fun i => canonEdge (f.idx i) (f.idx ((i + 1) % 3))

/-- The map `edgeMap` of `main` after the loop over the faces.  A Go
`map[[2]int]struct{}` is a finite set of keys. -/
def edgeMap : Finset (Nat × Nat) :=
  faces.foldl (fun m f => (faceEdges f).foldl (fun m e => insert e m) m) ∅

/-- The loop `for e := range edgeMap { edges = append(edges, e) }`: Go visits
every key of the map exactly once, in an unspecified order.  `edges` is a
possible outcome of the loop. -/
def RangeOver (m : Finset (Nat × Nat)) (edges : List (Nat × Nat)) : Prop :=
  edges.Nodup ∧ edges.toFinset = m

instance (m : Finset (Nat × Nat)) (edges : List (Nat × Nat)) :
    Decidable (RangeOver m edges) := by
  unfold RangeOver; infer_instance

/-- A face contains the vertex index `v`. -/
def Face.has (f : Face) (v : Nat) : Prop :=
  f.v0 = v ∨ f.v1 = v ∨ f.v2 = v

instance (f : Face) (v : Nat) : Decidable (f.has v) := by
  unfold Face.has; infer_instance

/-- The faces that have both ends of the edge `e` among their vertices. -/
def facesOn (e : Nat × Nat) : List Face :=
  faces.filter fun f => f.has e.1 ∧ f.has e.2

/-- The enumeration of `edgeMap` in lexicographic order (one possible outcome
of the range loop). -/
def sortedEdges : List (Nat × Nat) :=
  [(0, 1), (0, 2), (0, 4), (0, 6), (0, 8), (0, 9), (1, 4), (1, 6), (1, 10), (1, 11),
   (2, 3), (2, 7), (2, 8), (2, 9), (3, 5), (3, 7), (3, 8), (4, 5), (4, 8), (4, 10),
   (5, 7), (5, 8), (5, 10), (6, 9), (6, 11), (7, 9), (7, 10), (7, 11), (9, 11), (10, 11)]

/-! ## Points and rotations -/

/-- The struct `Vec3` of the source, with real components. -/
@[ext]
structure Vec3 where
  x : ℝ
  y : ℝ
  z : ℝ

/-- Constant `scaleModel` of the source. -/
noncomputable def scaleModel : ℝ := 1.0

/-- Constant `zCamera` of the source. -/
noncomputable def zCamera : ℝ := 4.0

/-- Constant `fov` of the source: 60 degrees in radians. -/
noncomputable def fov : ℝ := 60.0 * (Real.pi / 180.0)

/-- Function `rotateX` of the source. -/
noncomputable def rotateX (p : Vec3) (angle : ℝ) : Vec3 :=
  let s := Real.sin angle
  let c := Real.cos angle
  { x := p.x
    y := p.y * c - p.z * s
    z := p.y * s + p.z * c }

/-- Function `rotateY` of the source. -/
noncomputable def rotateY (p : Vec3) (angle : ℝ) : Vec3 :=
  let s := Real.sin angle
  let c := Real.cos angle
  { x := p.x * c + p.z * s
    y := p.y
    z := -p.x * s + p.z * c }

/-- Function `rotateZ` of the source. -/
noncomputable def rotateZ (p : Vec3) (angle : ℝ) : Vec3 :=
  let s := Real.sin angle
  let c := Real.cos angle
  { x := p.x * c - p.y * s
    y := p.x * s + p.y * c
    z := p.z }

/-! ## Vertices of `main` -/

/-- The golden ratio `phi` of `main`. -/
noncomputable def phi : ℝ := (1.0 + Real.sqrt 5) / 2.0

/-- The slice `rawVertices` of `main`. -/
noncomputable def rawVertices : List Vec3 :=
  [⟨0, -1, -phi⟩, ⟨0, -1, phi⟩, ⟨0, 1, -phi⟩, ⟨0, 1, phi⟩,
   ⟨-1, -phi, 0⟩, ⟨-1, phi, 0⟩, ⟨1, -phi, 0⟩, ⟨1, phi, 0⟩,
   ⟨-phi, 0, -1⟩, ⟨phi, 0, -1⟩, ⟨-phi, 0, 1⟩, ⟨phi, 0, 1⟩]

/-- The slice `vertices` of `main`: every raw vertex scaled by `scaleModel`. -/
noncomputable def vertices : List Vec3 :=
  rawVertices.map fun v => ⟨v.x * scaleModel, v.y * scaleModel, v.z * scaleModel⟩

/-- Euclidean distance between two points (used to state that edges have equal
length; not a function of the source). -/
noncomputable def distance (a b : Vec3) : ℝ :=
  Real.sqrt ((a.x - b.x) ^ 2 + (a.y - b.y) ^ 2 + (a.z - b.z) ^ 2)

/-- The edge `e` joins two vertices of the vertex list whose distance is `d`. -/
def EdgeHasLength (e : Nat × Nat) (d : ℝ) : Prop :=
  ∃ a b, vertices[e.1]? = some a ∧ vertices[e.2]? = some b ∧ distance a b = d

/-- All edges of the edge map have the same length `d` (what the comment on
`rawVertices` announces: a regular icosahedron with edges of equal length). -/
def EdgesHaveLength (d : ℝ) : Prop :=
  ∀ e ∈ edgeMap, EdgeHasLength e d

/-- The six members of the edge map that join two vertices differing in the
sign of their golden-ratio coordinate. -/
def longEdges : List (Nat × Nat) :=
  [(0, 1), (2, 3), (3, 8), (4, 5), (7, 10), (10, 11)]

/-! ## Projection -/

/-- Conversion `int(v)` of a `float64`: the fraction is discarded (truncation
towards zero). -/
noncomputable def goInt (v : ℝ) : Int :=
  if 0 ≤ v then ⌊v⌋ else ⌈v⌉

/-- Function `project` of the source; the result is `(sx, sy, ok)`. -/
noncomputable def project (p : Vec3) : Int × Int × Bool :=
  let z := p.z + zCamera
  if z ≤ 0.1 then (0, 0, false)
  else
    let scale := 1.0 / Real.tan (fov / 2.0)
    let x := p.x * scale / z
    let y := p.y * scale / z
    let sx := goInt ((x + 1.0) * 0.5 * ((screenWidth - 1 : Int) : ℝ) + 0.5)
    let sy := goInt ((1.0 - (y + 1.0) * 0.5) * ((screenHeight - 1 : Int) : ℝ) + 0.5)
    if sx < 0 ∨ sx ≥ screenWidth ∨ sy < 0 ∨ sy ≥ screenHeight then (0, 0, false)
    else (sx, sy, true)

/-- The projector as the specification words it: a point whose translated
depth is at most the near plane is rejected; otherwise the cell is the
rounding (to the nearest integer) of the scaled normalised device coordinates,
and the point is rejected when that cell is outside the 80 x 30 grid. -/
noncomputable def specProject (p : Vec3) : Int × Int × Bool :=
  let z := p.z + 4.0
  if z ≤ 0.1 then (0, 0, false)
  else
    let scale := 1 / Real.tan (Real.pi / 6)
    let ndcx := p.x * scale / z
    let ndcy := p.y * scale / z
    let rx := round ((ndcx + 1) * 0.5 * 79)
    let ry := round ((1 - (ndcy + 1) * 0.5) * 29)
    if 0 ≤ rx ∧ rx < 80 ∧ 0 ≤ ry ∧ ry < 30 then (rx, ry, true) else (0, 0, false)

/-! ## Frame buffer and rasteriser -/

/-- What stops a run without a result. -/
inductive Fault where
  | indexOutOfRange
  | outOfFuel
  deriving DecidableEq, Repr

/-- The frame buffer `[][]rune`: a list of rows of glyphs. -/
abbrev Buffer := List (List Char)

/-- The glyph at row `r`, column `c`, when the buffer has such a cell. -/
def cellAt (buf : Buffer) (r c : Nat) : Option Char :=
  match buf[r]? with
  | none => none
  | some row => row[c]?

/-- Function `makeBuffer` of the source: `make` gives zeroed slices, the loops
fill every cell of every row with a blank. -/
def makeBuffer : Buffer :=
  (List.range screenHeight.toNat).foldl
    (fun buf i =>
      buf.set i ((List.range screenWidth.toNat).foldl (fun row j => row.set j ' ')
        (List.replicate screenWidth.toNat (Char.ofNat 0))))
    (List.replicate screenHeight.toNat [])

/-- Function `putPixel` of the source.  The assignment `buf[y][x] = ch` faults
when the buffer has no such cell. -/
def putPixel (buf : Buffer) (x y : Int) (ch : Char) : Except Fault Buffer :=
  if x ≥ 0 ∧ x < screenWidth ∧ y ≥ 0 ∧ y < screenHeight then
    match buf[y.toNat]? with
    | none => .error .indexOutOfRange
    | some row =>
      if x.toNat < row.length then .ok (buf.set y.toNat (row.set x.toNat ch))
      else .error .indexOutOfRange
  else .ok buf

/-- The value of a 64-bit signed integer operation whose exact result is `n`:
two's complement wrap-around into `[-2^63, 2^63)`. -/
def wrap64 (n : Int) : Int :=
  (n + 2 ^ 63) % 2 ^ 64 - 2 ^ 63

/-- The integer `n` is a value of Go's `int` (64 bits). -/
def IsInt64 (n : Int) : Prop :=
  -2 ^ 63 ≤ n ∧ n < 2 ^ 63

instance (n : Int) : Decidable (IsInt64 n) := by
  unfold IsInt64; infer_instance

/-- The natural number `a` rounded to the nearest multiple of `2^e`; a tie
goes to the multiple whose quotient by `2^e` is even. -/
def roundToEven (a e : Nat) : Nat :=
  let q := a / 2 ^ e
  let r := a % 2 ^ e
  if 2 * r < 2 ^ e then q * 2 ^ e
  else if 2 * r = 2 ^ e ∧ q % 2 = 0 then q * 2 ^ e
  else (q + 1) * 2 ^ e

/-- The number of low bits of `a ≤ 2^64` that do not fit in the 53-bit
significand of a `float64`: the number of `k` with `2^(53+k) ≤ a`. -/
def lostBits (a : Nat) : Nat :=
  ((List.range 12).filter fun k => 2 ^ (53 + k) ≤ a).length

/-- The conversion `float64(n)` of a 64-bit integer, given as the integer that
the resulting `float64` denotes: exact when `|n| ≤ 2^53`, otherwise `|n|` is
rounded to 53 significant bits (round to nearest, ties to even). -/
def float64OfInt (n : Int) : Int :=
  if n.natAbs ≤ 2 ^ 53 then n
  else n.sign * ((roundToEven n.natAbs (lostBits n.natAbs) : Nat) : Int)

/-- The expression `int(math.Abs(float64(d)))` of `drawLine` for an `int` `d`.
`math.Abs` is exact; the conversion back to `int` is exact below `2^63`, and
for the one value `2^63` that does not fit (Go leaves it to the
implementation) it is the minimum `int`, as on amd64. -/
def goAbs (d : Int) : Int :=
  wrap64 |float64OfInt d|

/-- The `for` loop of `drawLine`, run for at most `fuel` iterations; `x0`,
`y0` and `err` are the variables the loop updates. -/
def drawLineLoop (dx dy sx sy x1 y1 : Int) (ch : Char) :
    Nat → Buffer → Int → Int → Int → Except Fault Buffer
  | 0, _, _, _, _ => .error .outOfFuel
  | fuel + 1, buf, x0, y0, err =>
    match putPixel buf x0 y0 ch with
    | .error f => .error f
    | .ok buf =>
      if x0 = x1 ∧ y0 = y1 then .ok buf
      else
        let e2 := wrap64 (2 * err)
        let (err, x0) :=
          if e2 ≥ dy then (wrap64 (err + dy), wrap64 (x0 + sx)) else (err, x0)
        let (err, y0) :=
          if e2 ≤ dx then (wrap64 (err + dx), wrap64 (y0 + sy)) else (err, y0)
        drawLineLoop dx dy sx sy x1 y1 ch fuel buf x0 y0 err

/-- Function `drawLine` of the source, with the fuel of its loop. -/
def drawLine (fuel : Nat) (buf : Buffer) (x0 y0 x1 y1 : Int) (ch : Char) :
    Except Fault Buffer :=
  let dx := goAbs (wrap64 (x1 - x0))
  let sx : Int := if x0 < x1 then 1 else -1
  let dy := wrap64 (-goAbs (wrap64 (y1 - y0)))
  let sy : Int := if y0 < y1 then 1 else -1
  let err := wrap64 (dx + dy)
  drawLineLoop dx dy sx sy x1 y1 ch fuel buf x0 y0 err

/-- The calls `putPixel(buf, x0, y0, ch)` that the loop of `drawLine` makes, in
order: the same loop with the buffer left out and every plotted cell `(x0, y0)`
recorded.  `none` when the fuel runs out before the loop breaks. -/
def lineCellsLoop (dx dy sx sy x1 y1 : Int) :
    Nat → Int → Int → Int → Option (List (Int × Int))
  | 0, _, _, _ => none
  | fuel + 1, x0, y0, err =>
    if x0 = x1 ∧ y0 = y1 then some [(x0, y0)]
    else
      let e2 := wrap64 (2 * err)
      let err1 := if e2 ≥ dy then wrap64 (err + dy) else err
      let nx := if e2 ≥ dy then wrap64 (x0 + sx) else x0
      let err2 := if e2 ≤ dx then wrap64 (err1 + dx) else err1
      let ny := if e2 ≤ dx then wrap64 (y0 + sy) else y0
      match lineCellsLoop dx dy sx sy x1 y1 fuel nx ny err2 with
      | none => none
      | some cells => some ((x0, y0) :: cells)

/-- The cells that `drawLine` plots between `(x0, y0)` and `(x1, y1)`, in
order, with the set-up of `drawLine` before its loop. -/
def lineCells (fuel : Nat) (x0 y0 x1 y1 : Int) : Option (List (Int × Int)) :=
  let dx := goAbs (wrap64 (x1 - x0))
  let sx : Int := if x0 < x1 then 1 else -1
  let dy := wrap64 (-goAbs (wrap64 (y1 - y0)))
  let sy : Int := if y0 < y1 then 1 else -1
  let err := wrap64 (dx + dy)
  lineCellsLoop dx dy sx sy x1 y1 fuel x0 y0 err

/-- The cells that the loop of `drawLine` plots during its first `n`
iterations, in order (all its cells when it breaks before that). -/
def linePlotsLoop (dx dy sx sy x1 y1 : Int) :
    Nat → Int → Int → Int → List (Int × Int)
  | 0, _, _, _ => []
  | n + 1, x0, y0, err =>
    if x0 = x1 ∧ y0 = y1 then [(x0, y0)]
    else
      let e2 := wrap64 (2 * err)
      let err1 := if e2 ≥ dy then wrap64 (err + dy) else err
      let nx := if e2 ≥ dy then wrap64 (x0 + sx) else x0
      let err2 := if e2 ≤ dx then wrap64 (err1 + dx) else err1
      let ny := if e2 ≤ dx then wrap64 (y0 + sy) else y0
      (x0, y0) :: linePlotsLoop dx dy sx sy x1 y1 n nx ny err2

/-- The cells that `drawLine` plots during the first `n` iterations of its
loop, with the set-up of `drawLine` before the loop. -/
def linePlots (n : Nat) (x0 y0 x1 y1 : Int) : List (Int × Int) :=
  let dx := goAbs (wrap64 (x1 - x0))
  let sx : Int := if x0 < x1 then 1 else -1
  let dy := wrap64 (-goAbs (wrap64 (y1 - y0)))
  let sy : Int := if y0 < y1 then 1 else -1
  let err := wrap64 (dx + dy)
  linePlotsLoop dx dy sx sy x1 y1 n x0 y0 err

/-- Calling `putPixel` with the glyph `ch` on every cell of a list, in order. -/
def plotAll (ch : Char) : List (Int × Int) → Buffer → Except Fault Buffer
  | [], buf => .ok buf
  | c :: cs, buf =>
    match putPixel buf c.1 c.2 ch with
    | .error f => .error f
    | .ok buf => plotAll ch cs buf

/-- The number of iterations that the loop of `drawLine` needs: one more than
the larger of the two coordinate distances. -/
def lineFuel (x0 y0 x1 y1 : Int) : Nat :=
  max (x1 - x0).natAbs (y1 - y0).natAbs + 1

/-- Two cells plotted one after the other: each coordinate moved by at most
one, and the cell changed. -/
def StepOK (a b : Int × Int) : Prop :=
  |b.1 - a.1| ≤ 1 ∧ |b.2 - a.2| ≤ 1 ∧ a ≠ b

/-- The cell `c` lies in the bounding box of `(x0, y0)` and `(x1, y1)`. -/
def InBox (x0 y0 x1 y1 : Int) (c : Int × Int) : Prop :=
  min x0 x1 ≤ c.1 ∧ c.1 ≤ max x0 x1 ∧ min y0 y1 ≤ c.2 ∧ c.2 ≤ max y0 y1

/-- The cell `c` lies inside the 80 x 30 grid. -/
def InGrid (c : Int × Int) : Prop :=
  0 ≤ c.1 ∧ c.1 < screenWidth ∧ 0 ≤ c.2 ∧ c.2 < screenHeight

instance (c : Int × Int) : Decidable (InGrid c) := by
  unfold InGrid; infer_instance

/-- The buffer is a frame: `screenHeight` rows of `screenWidth` glyphs each. -/
def IsFrame (buf : Buffer) : Prop :=
  buf.length = screenHeight.toNat ∧ ∀ row ∈ buf, row.length = screenWidth.toNat

instance (buf : Buffer) : Decidable (IsFrame buf) := by
  unfold IsFrame; infer_instance

/-- The shape of a buffer: the lengths of its rows, in order. -/
def shape (buf : Buffer) : List Nat :=
  buf.map List.length

/-! ## The frame loop of `main` -/

/-- The glyph of the face with 0-based index `i` in the label loop:
`label := i + 1; ch := rune('0' + (label % 10))`. -/
def faceLabel (i : Nat) : Char :=
  let label := i + 1
  Char.ofNat ('0'.toNat + label % 10)

/-- The three rotations that the frame loop applies to a point, in the order
of the source: about X by `angle*0.8`, about Y by `angle*1.1`, about Z by
`angle*0.6`. -/
noncomputable def rotateFrame (p : Vec3) (angle : ℝ) : Vec3 :=
  rotateZ (rotateY (rotateX p (angle * 0.8)) (angle * 1.1)) (angle * 0.6)

/-- The loop that fills `faceCenters`: the arithmetic mean of the three
vertices of every face.  Indexing `vertices` out of range is a fault. -/
noncomputable def faceCentersOf : List Face → Except Fault (List Vec3)
  | [] => .ok []
  | f :: rest =>
    match vertices[f.v0]?, vertices[f.v1]?, vertices[f.v2]? with
    | some a, some b, some c =>
      match faceCentersOf rest with
      | .error e => .error e
      | .ok cs =>
        .ok (⟨(a.x + b.x + c.x) / 3.0, (a.y + b.y + c.y) / 3.0, (a.z + b.z + c.z) / 3.0⟩ :: cs)
    | _, _, _ => .error .indexOutOfRange

/-- The slice `faceCenters` of `main`. -/
noncomputable def faceCenters : Except Fault (List Vec3) :=
  faceCentersOf faces

/-- The slice `projVerts` of one frame: every vertex rotated and projected. -/
noncomputable def projVerts (angle : ℝ) : List (Int × Int × Bool) :=
  vertices.map fun v => project (rotateFrame v angle)

/-- The edge loop of one frame over the projected vertices `pv`: an edge with
an invalid end is skipped, every other edge is drawn with `'#'`. -/
def drawEdges (fuel : Nat) (pv : List (Int × Int × Bool)) :
    List (Nat × Nat) → Buffer → Except Fault Buffer
  | [], buf => .ok buf
  | e :: rest, buf =>
    match pv[e.1]?, pv[e.2]? with
    | some a, some b =>
      if !a.2.2 || !b.2.2 then drawEdges fuel pv rest buf
      else
        match drawLine fuel buf a.1 a.2.1 b.1 b.2.1 '#' with
        | .error f => .error f
        | .ok buf => drawEdges fuel pv rest buf
    | _, _ => .error .indexOutOfRange

/-- The label loop of one frame, from the face with index `i` on: the centre
is rotated and projected, and when it is valid the label of the face is
plotted at its cell. -/
noncomputable def drawLabels (angle : ℝ) : Nat → List Vec3 → Buffer → Except Fault Buffer
  | _, [], buf => .ok buf
  | i, c :: rest, buf =>
    let p := rotateFrame c angle
    let r := project p
    if !r.2.2 then drawLabels angle (i + 1) rest buf
    else
      match putPixel buf r.1 r.2.1 (faceLabel i) with
      | .error f => .error f
      | .ok buf => drawLabels angle (i + 1) rest buf

/-- The buffer of one frame of `main` for the rotation angle `angle`, when the
range loop over the edge map has produced the list `edges`: a fresh buffer,
all edges, then all labels. -/
noncomputable def frame (fuel : Nat) (angle : ℝ) (edges : List (Nat × Nat)) :
    Except Fault Buffer :=
  match faceCenters with
  | .error f => .error f
  | .ok centers =>
    match drawEdges fuel (projVerts angle) edges makeBuffer with
    | .error f => .error f
    | .ok buf => drawLabels angle 0 centers buf

/-- The squared distance of a point to the origin. -/
noncomputable def normSq (p : Vec3) : ℝ :=
  p.x ^ 2 + p.y ^ 2 + p.z ^ 2

/-! ## Theorems -/

/-- The map built by the loops over the faces holds exactly the thirty keys
of `sortedEdges`. -/
theorem edgeMap_eq : edgeMap = sortedEdges.toFinset := by decide

theorem edgeMap_card : edgeMap.card = 30 := by decide

theorem edgeMap_lt : ∀ e ∈ edgeMap, e.1 < e.2 := by decide

theorem faceEdges_mem_edgeMap :
    ∀ f ∈ faces, ∀ i ∈ List.range 3,
      canonEdge (f.idx i) (f.idx ((i + 1) % 3)) ∈ edgeMap := by decide

theorem edgeMap_two_faces : ∀ e ∈ edgeMap, (facesOn e).length = 2 := by decide

theorem faces_wellformed :
    ∀ f ∈ faces, f.v0 ≠ f.v1 ∧ f.v1 ≠ f.v2 ∧ f.v0 ≠ f.v2 ∧
      f.v0 < 12 ∧ f.v1 < 12 ∧ f.v2 < 12 := by decide

/-- C1: every list `edges` that the range loop over `edgeMap` can produce has
exactly 30 members, holds no pair twice, has `a < b` in every member `(a, b)`,
and holds the canonical form (in either orientation) of every side of every
one of the 20 faces. -/
theorem edges_of_faces (edges : List (Nat × Nat)) (h : RangeOver edgeMap edges) :
    faces.length = 20 ∧ edges.length = 30 ∧ edges.Nodup ∧
      (∀ e ∈ edges, e.1 < e.2) ∧
      (∀ f ∈ faces, ∀ i, i < 3 →
        canonEdge (f.idx i) (f.idx ((i + 1) % 3)) ∈ edges ∧
        canonEdge (f.idx ((i + 1) % 3)) (f.idx i) ∈ edges) := by
  obtain ⟨hnd, hset⟩ := h
  have hmem : ∀ e, e ∈ edges ↔ e ∈ edgeMap := fun e => by
    rw [← hset, List.mem_toFinset]
  refine ⟨rfl, ?_, hnd, ?_, ?_⟩
  · rw [← List.toFinset_card_of_nodup hnd, hset]
    exact edgeMap_card
  · intro e he
    exact edgeMap_lt e ((hmem e).1 he)
  · intro f hf i hi
    have h1 := faceEdges_mem_edgeMap f hf i (List.mem_range.2 hi)
    have h2 : canonEdge (f.idx ((i + 1) % 3)) (f.idx i) =
        canonEdge (f.idx i) (f.idx ((i + 1) % 3)) := by
      unfold canonEdge
      rcases Nat.lt_trichotomy (f.idx i) (f.idx ((i + 1) % 3)) with hlt | heq | hgt
      · simp [hlt, Nat.lt_asymm hlt]
      · simp [heq]
      · simp [hgt, Nat.lt_asymm hgt]
    refine ⟨(hmem _).2 h1, ?_⟩
    rw [h2]; exact (hmem _).2 h1

/-- Witness for C1 at the lexicographic enumeration of the map. -/
theorem edges_of_faces_witness :
    RangeOver edgeMap sortedEdges ∧ sortedEdges.length = 30 :=
  ⟨by decide, (edges_of_faces sortedEdges (by decide)).2.1⟩

/-- C3: every member `(a, b)` of the derived edge set is a common side of
exactly two of the 20 faces (exactly two faces have both `a` and `b` among
their vertices), and every face has three distinct vertex indices, each in the
range `0..11`. -/
theorem edge_shared_by_two_faces :
    (∀ e ∈ edgeMap, (facesOn e).length = 2) ∧
      faces.length = 20 ∧
      (∀ f ∈ faces, f.v0 ≠ f.v1 ∧ f.v1 ≠ f.v2 ∧ f.v0 ≠ f.v2 ∧
        f.v0 < 12 ∧ f.v1 < 12 ∧ f.v2 < 12) :=
  ⟨edgeMap_two_faces, rfl, faces_wellformed⟩

/-! ### Edge lengths -/

theorem sqrt_five_pos : (0 : ℝ) < Real.sqrt 5 := Real.sqrt_pos.2 (by norm_num)

theorem sqrt_five_sq : Real.sqrt 5 * Real.sqrt 5 = 5 := Real.mul_self_sqrt (by norm_num)

theorem phi_sq : phi * phi = phi + 1 := by
  have := sqrt_five_sq
  unfold phi
  nlinarith

theorem two_phi : 1 + Real.sqrt 5 = 2 * phi := by
  unfold phi; ring

theorem two_phi_nonneg : (0 : ℝ) ≤ 2 * phi := by
  rw [← two_phi]
  have := sqrt_five_pos
  linarith

theorem distance_eq_of_sq {a b : Vec3} {d : ℝ} (hd : 0 ≤ d)
    (h : (a.x - b.x) ^ 2 + (a.y - b.y) ^ 2 + (a.z - b.z) ^ 2 = d * d) :
    distance a b = d := by
  unfold distance
  rw [h]
  exact Real.sqrt_mul_self hd

/-- Scaling by `scaleModel = 1` leaves the raw vertices as they are. -/
theorem vertices_eq : vertices =
    [⟨0, -1, -phi⟩, ⟨0, -1, phi⟩, ⟨0, 1, -phi⟩, ⟨0, 1, phi⟩,
     ⟨-1, -phi, 0⟩, ⟨-1, phi, 0⟩, ⟨1, -phi, 0⟩, ⟨1, phi, 0⟩,
     ⟨-phi, 0, -1⟩, ⟨phi, 0, -1⟩, ⟨-phi, 0, 1⟩, ⟨phi, 0, 1⟩] := by
  simp [vertices, rawVertices, scaleModel]
  norm_num

theorem vertices_lookup (i : Nat) (v : Vec3)
    (h : ([⟨0, -1, -phi⟩, ⟨0, -1, phi⟩, ⟨0, 1, -phi⟩, ⟨0, 1, phi⟩,
      ⟨-1, -phi, 0⟩, ⟨-1, phi, 0⟩, ⟨1, -phi, 0⟩, ⟨1, phi, 0⟩,
      ⟨-phi, 0, -1⟩, ⟨phi, 0, -1⟩, ⟨-phi, 0, 1⟩, ⟨phi, 0, 1⟩] : List Vec3)[i]? = some v) :
    vertices[i]? = some v := by
  rw [vertices_eq]; exact h

/-- An edge has at most one length. -/
theorem EdgeHasLength.unique {e : Nat × Nat} {d d' : ℝ}
    (h : EdgeHasLength e d) (h' : EdgeHasLength e d') : d = d' := by
  obtain ⟨a, b, ha, hb, hd⟩ := h
  obtain ⟨a', b', ha', hb', hd'⟩ := h'
  rw [ha] at ha'
  rw [hb] at hb'
  cases ha'
  cases hb'
  rw [← hd, ← hd']

set_option maxHeartbeats 1000000 in
/-- The length of every edge of the edge map: the six edges of `longEdges`
have length `1 + √5` (twice the golden ratio), the other 24 have length 2. -/
theorem edge_lengths :
    ∀ e ∈ edgeMap, EdgeHasLength e (if e ∈ longEdges then 1 + Real.sqrt 5 else 2) := by
  rw [edgeMap_eq, two_phi]
  intro e he
  simp only [sortedEdges, List.toFinset_cons, List.toFinset_nil, Finset.mem_insert,
    Finset.mem_singleton, insert_emptyc_eq] at he
  rcases he with rfl | rfl | rfl | rfl | rfl | rfl | rfl | rfl | rfl | rfl | rfl | rfl | rfl |
    rfl | rfl | rfl | rfl | rfl | rfl | rfl | rfl | rfl | rfl | rfl | rfl | rfl | rfl | rfl |
    rfl | rfl
  all_goals
    refine ⟨_, _, vertices_lookup _ _ rfl, vertices_lookup _ _ rfl, ?_⟩
    first
    | rw [if_pos (by decide)]
      apply distance_eq_of_sq two_phi_nonneg
      simp only [List.getElem_cons_zero, List.getElem_cons_succ]
      first
      | ring1
      | linear_combination (-2 : ℝ) * phi_sq
    | rw [if_neg (by decide)]
      apply distance_eq_of_sq (by norm_num)
      simp only [List.getElem_cons_zero, List.getElem_cons_succ]
      first
      | ring1
      | linear_combination (2 : ℝ) * phi_sq

/-- C2 (evaluation of the code): the side `(0, 1)` of the first face joins the
vertices `(0, -1, -phi)` and `(0, -1, phi)` and has length `1 + √5`, the side
`(0, 2)` has length 2, both are members of the edge map, and so the edges of
the edge map do not all have one length; in particular not all have length 2. -/
theorem edge_lengths_differ :
    (0, 1) ∈ edgeMap ∧ (0, 2) ∈ edgeMap ∧
      EdgeHasLength (0, 1) (1 + Real.sqrt 5) ∧ EdgeHasLength (0, 2) 2 ∧
      (¬ ∃ d, EdgesHaveLength d) ∧ ¬ EdgesHaveLength 2 := by
  have m1 : ((0, 1) : Nat × Nat) ∈ edgeMap := by decide
  have m2 : ((0, 2) : Nat × Nat) ∈ edgeMap := by decide
  have l1 : EdgeHasLength (0, 1) (1 + Real.sqrt 5) := by
    have h := edge_lengths (0, 1) m1
    rwa [if_pos (by decide)] at h
  have l2 : EdgeHasLength (0, 2) 2 := by
    have h := edge_lengths (0, 2) m2
    rwa [if_neg (by decide)] at h
  have key : ¬ ∃ d, EdgesHaveLength d := by
    rintro ⟨d, hd⟩
    have e1 := (hd (0, 1) m1).unique l1
    have e2 := (hd (0, 2) m2).unique l2
    have h5 : Real.sqrt 5 = 1 := by linarith
    have hsq := sqrt_five_sq
    rw [h5] at hsq
    norm_num at hsq
  exact ⟨m1, m2, l1, l2, key, fun h => key ⟨2, h⟩⟩

/-! ### Projection -/

/-- The perspective scale `1 / tan (fov / 2)` is `√3`. -/
theorem scale_eq : 1.0 / Real.tan (fov / 2.0) = Real.sqrt 3 := by
  have h : fov / 2.0 = Real.pi / 6 := by unfold fov; ring
  rw [h, Real.tan_pi_div_six]
  norm_num

theorem sqrt_three_bounds : (1.73 : ℝ) < Real.sqrt 3 ∧ Real.sqrt 3 < 1.74 := by
  constructor
  · rw [Real.lt_sqrt (by norm_num)]; norm_num
  · rw [Real.sqrt_lt' (by norm_num)]; norm_num

theorem goInt_intCast (n : Int) : goInt (n : ℝ) = n := by
  unfold goInt; split <;> simp

/-- Truncation sends every value strictly between `-1` and `0` to `0`. -/
theorem goInt_eq_zero_of_neg {v : ℝ} (h1 : -1 < v) (h2 : v < 0) : goInt v = 0 := by
  unfold goInt
  rw [if_neg (not_le.2 h2), Int.ceil_eq_iff]
  constructor <;> norm_num <;> linarith

/-- From `-1/2` upwards, adding one half and truncating is rounding. -/
theorem goInt_add_half {v : ℝ} (h : -(1 / 2) ≤ v) : goInt (v + 0.5) = round v := by
  unfold goInt
  rw [if_pos (by linarith), round_eq]
  norm_num

theorem project_origin : project ⟨0, 0, 0⟩ = (40, 15, true) := by
  unfold project zCamera screenWidth screenHeight
  have h1 : (1.0 : ℝ) * 0.5 * ((80 - 1 : Int) : ℝ) + 0.5 = ((40 : Int) : ℝ) := by norm_num
  have h2 : ((1.0 : ℝ) - 1.0 * 0.5) * ((30 - 1 : Int) : ℝ) + 0.5 = ((15 : Int) : ℝ) := by
    norm_num
  simp only [zero_mul, zero_div, zero_add]
  rw [h1, h2, goInt_intCast, goInt_intCast]
  norm_num

theorem project_left : project ⟨-2.37, 0, 0⟩ = (0, 15, true) := by
  obtain ⟨hlo, hhi⟩ := sqrt_three_bounds
  unfold project zCamera screenWidth screenHeight
  simp only [scale_eq, zero_mul, zero_div, zero_add]
  have h1 : goInt ((-2.37 * Real.sqrt 3 / 4.0 + 1.0) * 0.5 * ((80 - 1 : Int) : ℝ) + 0.5)
      = 0 := by
    apply goInt_eq_zero_of_neg
    · push_cast; nlinarith
    · push_cast; nlinarith
  have h2 : ((1.0 : ℝ) - 1.0 * 0.5) * ((30 - 1 : Int) : ℝ) + 0.5 = ((15 : Int) : ℝ) := by
    norm_num
  rw [h1, h2, goInt_intCast]
  norm_num

theorem round_left : round ((-2.37 * Real.sqrt 3 / 4.0 + 1) * 0.5 * 79) = -1 := by
  obtain ⟨hlo, hhi⟩ := sqrt_three_bounds
  rw [round_eq, Int.floor_eq_iff]
  constructor
  · push_cast; nlinarith
  · push_cast; nlinarith

theorem specProject_left : specProject ⟨-2.37, 0, 0⟩ = (0, 0, false) := by
  unfold specProject
  have hs : (1 : ℝ) / Real.tan (Real.pi / 6) = Real.sqrt 3 := by
    rw [Real.tan_pi_div_six]; norm_num
  simp only [hs, zero_mul, zero_div, zero_add]
  rw [round_left]
  norm_num

/-- Where neither unrounded cell coordinate is below `-1/2`, the code and the
projector of the specification agree (also on rejecting behind the near plane). -/
theorem project_eq_specProject (p : Vec3)
    (hx : -(1 / 2) ≤ (p.x * Real.sqrt 3 / (p.z + 4) + 1) * 0.5 * 79)
    (hy : -(1 / 2) ≤ (1 - (p.y * Real.sqrt 3 / (p.z + 4) + 1) * 0.5) * 29) :
    project p = specProject p := by
  have hs : (1 : ℝ) / Real.tan (Real.pi / 6) = Real.sqrt 3 := by
    rw [Real.tan_pi_div_six]; norm_num
  have c4 : (4.0 : ℝ) = 4 := by norm_num
  have c1 : (1.0 : ℝ) = 1 := by norm_num
  have cw : ((screenWidth - 1 : Int) : ℝ) = 79 := by simp [screenWidth]
  have ch : ((screenHeight - 1 : Int) : ℝ) = 29 := by simp [screenHeight]
  unfold project specProject zCamera
  simp only [scale_eq, hs, cw, ch]
  simp only [c4, c1]
  by_cases hz : p.z + 4 ≤ 0.1
  · rw [if_pos hz, if_pos hz]
  · rw [if_neg hz, if_neg hz, goInt_add_half hx, goInt_add_half hy]
    simp only [screenWidth, screenHeight]
    split
    · rw [if_neg (by omega)]
    · rw [if_pos (by omega)]

/-- C4: `project` rejects every point behind or too close to the camera: when
`p.z + 4.0 ≤ 0.1` the result is `(0, 0, false)`, whatever `p.x` and `p.y` are. -/
theorem project_rejects_near (p : Vec3) (h : p.z + 4.0 ≤ 0.1) :
    project p = (0, 0, false) := by
  unfold project zCamera
  simp only []
  rw [if_pos h]

/-- Witness for C4: the point `(0, 0, -4.0)` is invalid. -/
theorem project_rejects_near_witness :
    ((-4.0 : ℝ) + 4.0 ≤ 0.1) ∧ project ⟨0, 0, -4.0⟩ = (0, 0, false) :=
  ⟨by norm_num, project_rejects_near ⟨0, 0, -4.0⟩ (by norm_num)⟩

/-- C5 (evaluation of the code): for the point `(-2.37, 0, 0)`, in front of
the near plane, the unrounded column rounds to `-1`, a cell outside the grid,
so the projector of the specification rejects the point, while `project`
returns the valid cell `(0, 15)`. -/
theorem project_accepts_cell_left_of_grid :
    ¬ ((0 : ℝ) + 4.0 ≤ 0.1) ∧
      round ((-2.37 * Real.sqrt 3 / 4.0 + 1) * 0.5 * 79) = -1 ∧
      specProject ⟨-2.37, 0, 0⟩ = (0, 0, false) ∧
      project ⟨-2.37, 0, 0⟩ = (0, 15, true) :=
  ⟨by norm_num, round_left, specProject_left, project_left⟩

/-- C6: `project` maps the point `(0, 0, 0)` on the camera axis to a valid
cell at the centre of the grid, with column 39 or 40 and row 14 or 15; the
value is `(40, 15)`. -/
theorem project_axis_point :
    project ⟨0, 0, 0⟩ = (40, 15, true) ∧
      ∃ sx sy, project ⟨0, 0, 0⟩ = (sx, sy, true) ∧
        (sx = 39 ∨ sx = 40) ∧ (sy = 14 ∨ sy = 15) :=
  ⟨project_origin, 40, 15, project_origin, Or.inr rfl, Or.inr rfl⟩

/-- C7: whenever `project p` returns a true validity flag, the returned cell is
inside the character grid: `0 ≤ sx < 80` and `0 ≤ sy < 30`. -/
theorem project_valid_in_grid (p : Vec3) (sx sy : Int)
    (h : project p = (sx, sy, true)) :
    0 ≤ sx ∧ sx < 80 ∧ 0 ≤ sy ∧ sy < 30 := by
  unfold project at h
  simp only [] at h
  split at h
  · simp at h
  · split at h
    · simp at h
    · rename_i hz hb
      simp only [Prod.mk.injEq, and_true] at h
      obtain ⟨h1, h2⟩ := h
      rw [h1, h2] at hb
      simp only [screenWidth, screenHeight] at hb
      omega

/-- Witness for C7 at the point `(0, 0, 0)`. -/
theorem project_valid_in_grid_witness :
    project ⟨0, 0, 0⟩ = (40, 15, true) ∧
      ((0 : Int) ≤ 40 ∧ (40 : Int) < 80 ∧ (0 : Int) ≤ 15 ∧ (15 : Int) < 30) :=
  ⟨project_origin, project_valid_in_grid ⟨0, 0, 0⟩ 40 15 project_origin⟩

/-! ### Rotations -/

/-- C8: rotating by the angle 0 is the identity on every axis. -/
theorem rotate_zero (p : Vec3) :
    rotateX p 0 = p ∧ rotateY p 0 = p ∧ rotateZ p 0 = p := by
  refine ⟨?_, ?_, ?_⟩
  · ext <;> simp [rotateX]
  · ext <;> simp [rotateY]
  · ext <;> simp [rotateZ]

/-- C9: rotation about one axis is angle-additive: rotating by `a` and then by
`b` about the same axis is rotating by `a + b`, for each of the three axes. -/
theorem rotate_add (p : Vec3) (a b : ℝ) :
    rotateX (rotateX p a) b = rotateX p (a + b) ∧
      rotateY (rotateY p a) b = rotateY p (a + b) ∧
      rotateZ (rotateZ p a) b = rotateZ p (a + b) := by
  refine ⟨?_, ?_, ?_⟩
  · ext <;> simp only [rotateX, Real.sin_add, Real.cos_add] <;> ring
  · ext <;> simp only [rotateY, Real.sin_add, Real.cos_add] <;> ring
  · ext <;> simp only [rotateZ, Real.sin_add, Real.cos_add] <;> ring

/-! ### Frame buffer -/

theorem getElem?_lt_length {α : Type} {l : List α} {i : Nat} {a : α}
    (h : l[i]? = some a) : i < l.length := by
  by_contra hge
  rw [List.getElem?_eq_none (not_lt.1 hge)] at h
  simp at h

/-- A buffer has the cell `(r, c)` exactly when it has a row `r` longer than `c`. -/
theorem cellAt_isSome_iff (buf : Buffer) (r c : Nat) :
    (cellAt buf r c).isSome ↔ ∃ row, buf[r]? = some row ∧ c < row.length := by
  unfold cellAt
  cases h : buf[r]? with
  | none => simp
  | some row =>
    simp only [Option.some.injEq, exists_eq_left']
    constructor
    · intro hc
      by_contra hlt
      rw [List.getElem?_eq_none (not_lt.1 hlt)] at hc
      simp at hc
    · intro hc
      rw [List.getElem?_eq_getElem hc]
      rfl

/-- Inside the grid and inside the buffer, `putPixel` replaces row `y` by its
copy with column `x` set. -/
theorem putPixel_inside (buf : Buffer) (x y : Int) (ch : Char) (row : List Char)
    (hx : 0 ≤ x ∧ x < 80) (hy : 0 ≤ y ∧ y < 30)
    (hrow : buf[y.toNat]? = some row) (hcol : x.toNat < row.length) :
    putPixel buf x y ch = .ok (buf.set y.toNat (row.set x.toNat ch)) := by
  unfold putPixel
  rw [if_pos ⟨hx.1, hx.2, hy.1, hy.2⟩]
  simp only [hrow]
  rw [if_pos hcol]

theorem cellAt_set_same (buf : Buffer) (r c : Nat) (ch : Char) (row : List Char)
    (hrow : buf[r]? = some row) (hcol : c < row.length) :
    cellAt (buf.set r (row.set c ch)) r c = some ch := by
  unfold cellAt
  rw [List.getElem?_set_self (getElem?_lt_length hrow)]
  simp only
  rw [List.getElem?_set_self hcol]

theorem cellAt_set_other (buf : Buffer) (r c r' c' : Nat) (ch : Char) (row : List Char)
    (hrow : buf[r]? = some row) (hne : (r', c') ≠ (r, c)) :
    cellAt (buf.set r (row.set c ch)) r' c' = cellAt buf r' c' := by
  unfold cellAt
  by_cases hr : r = r'
  · subst hr
    have hc : c ≠ c' := fun h => hne (by rw [h])
    rw [List.getElem?_set_self (getElem?_lt_length hrow), hrow]
    simp only
    rw [List.getElem?_set_ne hc]
  · rw [List.getElem?_set_ne hr]

theorem rowLength_set (buf : Buffer) (r c r' : Nat) (ch : Char) (row : List Char)
    (hrow : buf[r]? = some row) :
    ((buf.set r (row.set c ch))[r']?).map List.length = (buf[r']?).map List.length := by
  by_cases hr : r = r'
  · subst hr
    rw [List.getElem?_set_self (getElem?_lt_length hrow), hrow]
    simp
  · rw [List.getElem?_set_ne hr]

/-- C10: `drawLine` between two identical cell coordinates terminates (any
positive fuel is enough, one iteration is run) and plots exactly one cell: for
every in-grid `(x, y)` that is a cell of `buf` and every glyph `ch`, the result
is a buffer of the same shape that holds `ch` at row `y`, column `x`, and equals
`buf` at every other cell. -/
theorem drawLine_same_point (fuel : Nat) (buf : Buffer) (x y : Int) (ch : Char)
    (hx : 0 ≤ x ∧ x < 80) (hy : 0 ≤ y ∧ y < 30)
    (hcell : (cellAt buf y.toNat x.toNat).isSome) :
    ∃ out, drawLine (fuel + 1) buf x y x y ch = .ok out ∧
      out.length = buf.length ∧
      (∀ r : Nat, (out[r]?).map List.length = (buf[r]?).map List.length) ∧
      cellAt out y.toNat x.toNat = some ch ∧
      ∀ r c : Nat, (r, c) ≠ (y.toNat, x.toNat) → cellAt out r c = cellAt buf r c := by
  obtain ⟨row, hrow, hcol⟩ := (cellAt_isSome_iff buf _ _).1 hcell
  refine ⟨buf.set y.toNat (row.set x.toNat ch), ?_, ?_, ?_, ?_, ?_⟩
  · unfold drawLine
    simp only [drawLineLoop, putPixel_inside buf x y ch row hx hy hrow hcol, and_self, if_true]
  · exact List.length_set ..
  · intro r
    exact rowLength_set buf _ _ r ch row hrow
  · exact cellAt_set_same buf _ _ ch row hrow hcol
  · intro r c hne
    exact cellAt_set_other buf _ _ r c ch row hrow hne

/-- Witness for C10: `drawLine(buf, 5, 5, 5, 5, '#')` on a fresh buffer, with
fuel 1. -/
theorem drawLine_same_point_witness :
    (cellAt makeBuffer 5 5).isSome ∧
      ∃ out, drawLine 1 makeBuffer 5 5 5 5 '#' = .ok out ∧
        out.length = makeBuffer.length ∧
        (∀ r : Nat, (out[r]?).map List.length = (makeBuffer[r]?).map List.length) ∧
        cellAt out 5 5 = some '#' ∧
        ∀ r c : Nat, (r, c) ≠ (5, 5) → cellAt out r c = cellAt makeBuffer r c :=
  ⟨by decide, drawLine_same_point 0 makeBuffer 5 5 '#' (by decide) (by decide) (by decide)⟩

/-! ### 64-bit integers and the `float64` round trip -/

/-- An operation whose exact result is an `int` value does not wrap around. -/
theorem wrap64_eq {n : Int} (h : IsInt64 n) : wrap64 n = n := by
  unfold IsInt64 at h
  unfold wrap64
  omega

theorem wrap64_isInt64 (n : Int) : IsInt64 (wrap64 n) := by
  unfold IsInt64 wrap64
  omega

/-- Up to `2^53` the conversion to `float64` is exact. -/
theorem float64OfInt_exact {n : Int} (h : |n| ≤ 2 ^ 53) : float64OfInt n = n := by
  unfold float64OfInt
  rw [if_pos]
  have : ((n.natAbs : Nat) : Int) ≤ 2 ^ 53 := by rw [Int.natCast_natAbs]; exact h
  exact_mod_cast this

/-- Up to `2^53` the expression `int(math.Abs(float64(d)))` is `|d|`. -/
theorem goAbs_exact {d : Int} (h : |d| ≤ 2 ^ 53) : goAbs d = |d| := by
  unfold goAbs
  rw [float64OfInt_exact h]
  apply wrap64_eq
  unfold IsInt64
  have := abs_nonneg d
  constructor <;> omega

/-- Values of `float64(n)` above `2^53`: a tie goes to the even significand
(`2^53 + 1` down, `2^53 + 3` up), and the largest `int` becomes `2^63`. -/
theorem float64OfInt_rounds :
    float64OfInt (2 ^ 53 + 1) = 2 ^ 53 ∧ float64OfInt (2 ^ 53 + 2) = 2 ^ 53 + 2 ∧
      float64OfInt (2 ^ 53 + 3) = 2 ^ 53 + 4 ∧ float64OfInt (-(2 ^ 53 + 1)) = -2 ^ 53 ∧
      float64OfInt (2 ^ 54 + 2) = 2 ^ 54 ∧ float64OfInt (2 ^ 54 + 6) = 2 ^ 54 + 8 ∧
      float64OfInt (2 ^ 63 - 1) = 2 ^ 63 ∧ float64OfInt (-2 ^ 63) = -2 ^ 63 := by decide

/-! ### The line loop -/

/-- With `m` the distance along the major axis and `n` along the minor one,
`p` steps left on the major axis and the error within half a major step, the
steps `q` left on the minor axis are between `0` and `n`. -/
theorem minor_bounds {m n p q : Int} (hm : 0 < m) (hn : 0 ≤ n) (hp : 0 ≤ p) (hpm : p ≤ m)
    (h1 : -m ≤ 2 * (n * p - m * q)) (h2 : 2 * (n * p - m * q) ≤ m) : 0 ≤ q ∧ q ≤ n := by
  constructor
  · by_contra hq
    have hq' : q ≤ -1 := by omega
    have e1 : m * q ≤ m * (-1) := mul_le_mul_of_nonneg_left hq' hm.le
    have e2 : 0 ≤ n * p := mul_nonneg hn hp
    linarith
  · by_contra hq
    have hq' : n + 1 ≤ q := by omega
    have e1 : m * (n + 1) ≤ m * q := mul_le_mul_of_nonneg_left hq' hm.le
    have e2 : n * p ≤ n * m := mul_le_mul_of_nonneg_left hpm hn
    have e3 : m * (n + 1) = n * m + m := by ring
    linarith


/-- The loop on a line whose x-distance is the larger one and at most `2^53`:
from a state with `p` steps left in x it runs `p + 1` iterations, stepping x
every time, no operation wraps around, and it breaks at `(x1, y1)`. -/
theorem lineCellsLoop_major_x {dx DY sx sy x1 y1 : Int}
    (hsx : sx = 1 ∨ sx = -1) (hsy : sy = 1 ∨ sy = -1)
    (hdx : 0 < dx) (hDY : 0 ≤ DY) (hA : DY ≤ dx) (hB : dx ≤ 2 ^ 53)
    (hxr : ∀ k : Int, 0 ≤ k → k ≤ dx → IsInt64 (x1 - sx * k))
    (hyr : ∀ k : Int, 0 ≤ k → k ≤ DY → IsInt64 (y1 - sy * k)) :
    ∀ (p : Nat) (q x y err : Int) (extra : Nat),
      x1 = x + sx * p → y1 = y + sy * q → err = dx - DY + (DY * p - dx * q) →
      -dx ≤ 2 * (DY * p - dx * q) → 2 * (DY * p - dx * q) ≤ dx → (p : Int) ≤ dx →
      ∃ cells, lineCellsLoop dx (-DY) sx sy x1 y1 (p + 1 + extra) x y err = some cells ∧
        cells.length = p + 1 ∧ cells.head? = some (x, y) ∧
        cells.getLast? = some (x1, y1) ∧ List.Chain' StepOK cells ∧
        ∀ c ∈ cells, 0 ≤ sx * (x1 - c.1) ∧ sx * (x1 - c.1) ≤ dx ∧
          0 ≤ sy * (y1 - c.2) ∧ sy * (y1 - c.2) ≤ DY := by
  intro p
  induction p with
  | zero =>
    intro q x y err extra hx hy herr h1 h2 hp
    simp only [Nat.cast_zero, mul_zero, add_zero, zero_sub] at hx h1 h2
    have hq : q = 0 := by
      by_contra hne
      rcases lt_or_gt_of_ne hne with hlt | hgt
      · have hq1 : q ≤ -1 := by omega
        have e1 : dx * q ≤ dx * (-1) := mul_le_mul_of_nonneg_left hq1 hdx.le
        linarith
      · have hq1 : 1 ≤ q := by omega
        have e1 : dx * 1 ≤ dx * q := mul_le_mul_of_nonneg_left hq1 hdx.le
        linarith
    subst hq
    simp only [mul_zero, add_zero] at hy
    subst hx hy
    refine ⟨[(x1, y1)], ?_, rfl, rfl, rfl, List.chain'_singleton _, ?_⟩
    · rw [show 0 + 1 + extra = extra + 1 by omega, lineCellsLoop]
      simp
    · intro c hc
      simp only [List.mem_singleton] at hc
      subst hc
      simp only [sub_self, mul_zero, le_refl, true_and]
      exact ⟨hdx.le, hDY⟩
  | succ n ih =>
    intro q x y err extra hx hy herr h1 h2 hp
    have hqb := minor_bounds hdx hDY (by positivity) hp h1 h2
    have hne : ¬ (x = x1 ∧ y = y1) := by
      rintro ⟨hxx, -⟩
      rw [hxx] at hx
      have : sx * ((n + 1 : Nat) : Int) = 0 := by linarith
      rcases hsx with h | h <;> rw [h] at this <;> push_cast at this <;> omega
    have hxstep : 2 * err ≥ -DY := by rw [herr]; linarith
    have hfuel : n + 1 + 1 + extra = (n + 1 + extra) + 1 := by omega
    have hcast : ((n + 1 : Nat) : Int) = (n : Int) + 1 := by push_cast; ring
    have hboxhead : 0 ≤ sx * (x1 - x) ∧ sx * (x1 - x) ≤ dx ∧
        0 ≤ sy * (y1 - y) ∧ sy * (y1 - y) ≤ DY := by
      have e1 : sx * (x1 - x) = ((n + 1 : Nat) : Int) := by
        rw [hx]; rcases hsx with h | h <;> rw [h] <;> ring
      have e2 : sy * (y1 - y) = q := by
        rw [hy]; rcases hsy with h | h <;> rw [h] <;> ring
      rw [e1, e2]
      exact ⟨by positivity, hp, hqb.1, hqb.2⟩
    -- no operation of this iteration wraps around
    have herrlo : -(2 ^ 54) ≤ err := by rw [herr]; linarith
    have herrhi : err ≤ 2 ^ 54 := by rw [herr]; linarith
    have hw2 : wrap64 (2 * err) = 2 * err := wrap64_eq (by unfold IsInt64; omega)
    have hw1 : wrap64 (err + -DY) = err + -DY := wrap64_eq (by unfold IsInt64; omega)
    have hwx : wrap64 (x + sx) = x + sx := by
      apply wrap64_eq
      have hk := hxr n (by positivity) (by rw [hcast] at hp; linarith)
      have e : x1 - sx * (n : Int) = x + sx := by rw [hx, hcast]; ring
      rwa [e] at hk
    by_cases hystep : 2 * err ≤ dx
    · -- both coordinates step
      have hD : DY * (n : Int) - dx * (q - 1) = DY * ((n + 1 : Nat) : Int) - dx * q - DY + dx := by
        rw [hcast]; ring
      have i1 : -dx ≤ 2 * (DY * (n : Int) - dx * (q - 1)) := by
        rw [hD]; rw [herr] at hystep; linarith
      have i2 : 2 * (DY * (n : Int) - dx * (q - 1)) ≤ dx := by
        rw [hD]; rw [herr] at hystep; linarith
      have hpn : (n : Int) ≤ dx := by rw [hcast] at hp; linarith
      have hqb' := minor_bounds hdx hDY (by positivity) hpn i1 i2
      have hw3 : wrap64 (err + -DY + dx) = err + -DY + dx :=
        wrap64_eq (by unfold IsInt64; omega)
      have hwy : wrap64 (y + sy) = y + sy := by
        apply wrap64_eq
        have hk := hyr (q - 1) hqb'.1 hqb'.2
        have e : y1 - sy * (q - 1) = y + sy := by rw [hy]; ring
        rwa [e] at hk
      obtain ⟨cells, hcells, hlen, hhead, hlast, hchain, hbox⟩ :=
        ih (q - 1) (x + sx) (y + sy) (err + -DY + dx) extra
          (by rw [hx, hcast]; ring) (by rw [hy]; ring)
          (by rw [hD, herr]; ring) i1 i2 hpn
      refine ⟨(x, y) :: cells, ?_, ?_, rfl, ?_, ?_, ?_⟩
      · rw [hfuel, lineCellsLoop]
        simp only [if_neg hne, hw2, if_pos hxstep, hw1, hwx, if_pos hystep, hw3, hwy, hcells]
      · simp [hlen]
      · cases cells with
        | nil => simp at hlen
        | cons c cs => simpa using hlast
      · cases cells with
        | nil => simp at hlen
        | cons c cs =>
          simp only [List.head?_cons, Option.some.injEq] at hhead
          subst hhead
          refine List.Chain'.cons ?_ hchain
          refine ⟨?_, ?_, ?_⟩
          · rcases hsx with h | h <;> rw [h] <;> simp
          · rcases hsy with h | h <;> rw [h] <;> simp
          · intro heq
            have := congrArg Prod.fst heq
            simp only at this
            rcases hsx with h | h <;> rw [h] at this <;> omega
      · intro c hc
        rcases List.mem_cons.1 hc with rfl | hc
        · exact hboxhead
        · exact hbox c hc
    · -- only x steps
      have hD : DY * (n : Int) - dx * q = DY * ((n + 1 : Nat) : Int) - dx * q - DY := by
        rw [hcast]; ring
      obtain ⟨cells, hcells, hlen, hhead, hlast, hchain, hbox⟩ :=
        ih q (x + sx) y (err + -DY) extra
          (by rw [hx, hcast]; ring) hy
          (by rw [hD, herr]; ring) (by rw [hD]; rw [herr] at hystep; linarith)
          (by rw [hD]; rw [herr] at hystep; linarith) (by rw [hcast] at hp; linarith)
      refine ⟨(x, y) :: cells, ?_, ?_, rfl, ?_, ?_, ?_⟩
      · rw [hfuel, lineCellsLoop]
        simp only [if_neg hne, hw2, if_pos hxstep, hw1, hwx, if_neg hystep, hcells]
      · simp [hlen]
      · cases cells with
        | nil => simp at hlen
        | cons c cs => simpa using hlast
      · cases cells with
        | nil => simp at hlen
        | cons c cs =>
          simp only [List.head?_cons, Option.some.injEq] at hhead
          subst hhead
          refine List.Chain'.cons ?_ hchain
          refine ⟨?_, ?_, ?_⟩
          · rcases hsx with h | h <;> rw [h] <;> simp
          · simp
          · intro heq
            have := congrArg Prod.fst heq
            simp only at this
            rcases hsx with h | h <;> rw [h] at this <;> omega
      · intro c hc
        rcases List.mem_cons.1 hc with rfl | hc
        · exact hboxhead
        · exact hbox c hc

/-- The loop on a line whose y-distance is the larger one and at most `2^53`:
from a state with `q` steps left in y it runs `q + 1` iterations, stepping y
every time, no operation wraps around, and it breaks at `(x1, y1)`. -/
theorem lineCellsLoop_major_y {dx DY sx sy x1 y1 : Int}
    (hsx : sx = 1 ∨ sx = -1) (hsy : sy = 1 ∨ sy = -1)
    (hdx : 0 ≤ dx) (hDY : 0 < DY) (hA : dx ≤ DY) (hB : DY ≤ 2 ^ 53)
    (hxr : ∀ k : Int, 0 ≤ k → k ≤ dx → IsInt64 (x1 - sx * k))
    (hyr : ∀ k : Int, 0 ≤ k → k ≤ DY → IsInt64 (y1 - sy * k)) :
    ∀ (q : Nat) (p x y err : Int) (extra : Nat),
      x1 = x + sx * p → y1 = y + sy * q → err = dx - DY + (DY * p - dx * q) →
      -DY ≤ 2 * (DY * p - dx * q) → 2 * (DY * p - dx * q) ≤ DY → (q : Int) ≤ DY →
      ∃ cells, lineCellsLoop dx (-DY) sx sy x1 y1 (q + 1 + extra) x y err = some cells ∧
        cells.length = q + 1 ∧ cells.head? = some (x, y) ∧
        cells.getLast? = some (x1, y1) ∧ List.Chain' StepOK cells ∧
        ∀ c ∈ cells, 0 ≤ sx * (x1 - c.1) ∧ sx * (x1 - c.1) ≤ dx ∧
          0 ≤ sy * (y1 - c.2) ∧ sy * (y1 - c.2) ≤ DY := by
  intro q
  induction q with
  | zero =>
    intro p x y err extra hx hy herr h1 h2 hq
    simp only [Nat.cast_zero, mul_zero, add_zero, sub_zero] at hy h1 h2
    have hp : p = 0 := by
      by_contra hne
      rcases lt_or_gt_of_ne hne with hlt | hgt
      · have hp1 : p ≤ -1 := by omega
        have e1 : DY * p ≤ DY * (-1) := mul_le_mul_of_nonneg_left hp1 hDY.le
        linarith
      · have hp1 : 1 ≤ p := by omega
        have e1 : DY * 1 ≤ DY * p := mul_le_mul_of_nonneg_left hp1 hDY.le
        linarith
    subst hp
    simp only [mul_zero, add_zero] at hx
    subst hx hy
    refine ⟨[(x1, y1)], ?_, rfl, rfl, rfl, List.chain'_singleton _, ?_⟩
    · rw [show 0 + 1 + extra = extra + 1 by omega, lineCellsLoop]
      simp
    · intro c hc
      simp only [List.mem_singleton] at hc
      subst hc
      simp only [sub_self, mul_zero, le_refl, true_and]
      exact ⟨hdx, hDY.le⟩
  | succ n ih =>
    intro p x y err extra hx hy herr h1 h2 hq
    have hpb := minor_bounds (m := DY) (n := dx) (p := ((n + 1 : Nat) : Int)) (q := p)
      hDY hdx (by positivity) hq (by linarith) (by linarith)
    have hne : ¬ (x = x1 ∧ y = y1) := by
      rintro ⟨-, hyy⟩
      rw [hyy] at hy
      have : sy * ((n + 1 : Nat) : Int) = 0 := by linarith
      rcases hsy with h | h <;> rw [h] at this <;> push_cast at this <;> omega
    have hystep : 2 * err ≤ dx := by rw [herr]; linarith
    have hfuel : n + 1 + 1 + extra = (n + 1 + extra) + 1 := by omega
    have hcast : ((n + 1 : Nat) : Int) = (n : Int) + 1 := by push_cast; ring
    have hboxhead : 0 ≤ sx * (x1 - x) ∧ sx * (x1 - x) ≤ dx ∧
        0 ≤ sy * (y1 - y) ∧ sy * (y1 - y) ≤ DY := by
      have e1 : sx * (x1 - x) = p := by
        rw [hx]; rcases hsx with h | h <;> rw [h] <;> ring
      have e2 : sy * (y1 - y) = ((n + 1 : Nat) : Int) := by
        rw [hy]; rcases hsy with h | h <;> rw [h] <;> ring
      rw [e1, e2]
      exact ⟨hpb.1, hpb.2, by positivity, hq⟩
    -- no operation of this iteration wraps around
    have herrlo : -(2 ^ 54) ≤ err := by rw [herr]; linarith
    have herrhi : err ≤ 2 ^ 54 := by rw [herr]; linarith
    have hw2 : wrap64 (2 * err) = 2 * err := wrap64_eq (by unfold IsInt64; omega)
    have hwy : wrap64 (y + sy) = y + sy := by
      apply wrap64_eq
      have hk := hyr n (by positivity) (by rw [hcast] at hq; linarith)
      have e : y1 - sy * (n : Int) = y + sy := by rw [hy, hcast]; ring
      rwa [e] at hk
    by_cases hxstep : 2 * err ≥ -DY
    · -- both coordinates step
      have hD : DY * (p - 1) - dx * (n : Int) = DY * p - dx * ((n + 1 : Nat) : Int) - DY + dx := by
        rw [hcast]; ring
      have i1 : -DY ≤ 2 * (DY * (p - 1) - dx * (n : Int)) := by
        rw [hD]; rw [herr] at hxstep; linarith
      have i2 : 2 * (DY * (p - 1) - dx * (n : Int)) ≤ DY := by
        rw [hD]; rw [herr] at hxstep; linarith
      have hqn : (n : Int) ≤ DY := by rw [hcast] at hq; linarith
      have hpb' := minor_bounds (m := DY) (n := dx) (p := (n : Int)) (q := p - 1)
        hDY hdx (by positivity) hqn (by linarith) (by linarith)
      have hw1 : wrap64 (err + -DY) = err + -DY := wrap64_eq (by unfold IsInt64; omega)
      have hw3 : wrap64 (err + -DY + dx) = err + -DY + dx :=
        wrap64_eq (by unfold IsInt64; omega)
      have hwx : wrap64 (x + sx) = x + sx := by
        apply wrap64_eq
        have hk := hxr (p - 1) hpb'.1 hpb'.2
        have e : x1 - sx * (p - 1) = x + sx := by rw [hx]; ring
        rwa [e] at hk
      obtain ⟨cells, hcells, hlen, hhead, hlast, hchain, hbox⟩ :=
        ih (p - 1) (x + sx) (y + sy) (err + -DY + dx) extra
          (by rw [hx]; ring) (by rw [hy, hcast]; ring)
          (by rw [hD, herr]; ring) i1 i2 hqn
      refine ⟨(x, y) :: cells, ?_, ?_, rfl, ?_, ?_, ?_⟩
      · rw [hfuel, lineCellsLoop]
        simp only [if_neg hne, hw2, if_pos hxstep, hw1, hwx, if_pos hystep, hw3, hwy, hcells]
      · simp [hlen]
      · cases cells with
        | nil => simp at hlen
        | cons c cs => simpa using hlast
      · cases cells with
        | nil => simp at hlen
        | cons c cs =>
          simp only [List.head?_cons, Option.some.injEq] at hhead
          subst hhead
          refine List.Chain'.cons ?_ hchain
          refine ⟨?_, ?_, ?_⟩
          · rcases hsx with h | h <;> rw [h] <;> simp
          · rcases hsy with h | h <;> rw [h] <;> simp
          · intro heq
            have := congrArg Prod.snd heq
            simp only at this
            rcases hsy with h | h <;> rw [h] at this <;> omega
      · intro c hc
        rcases List.mem_cons.1 hc with rfl | hc
        · exact hboxhead
        · exact hbox c hc
    · -- only y steps
      have hD : DY * p - dx * (n : Int) = DY * p - dx * ((n + 1 : Nat) : Int) + dx := by
        rw [hcast]; ring
      have hw3 : wrap64 (err + dx) = err + dx := wrap64_eq (by unfold IsInt64; omega)
      obtain ⟨cells, hcells, hlen, hhead, hlast, hchain, hbox⟩ :=
        ih p x (y + sy) (err + dx) extra
          hx (by rw [hy, hcast]; ring)
          (by rw [hD, herr]; ring) (by rw [hD]; rw [herr] at hxstep; linarith)
          (by rw [hD]; rw [herr] at hxstep; linarith) (by rw [hcast] at hq; linarith)
      refine ⟨(x, y) :: cells, ?_, ?_, rfl, ?_, ?_, ?_⟩
      · rw [hfuel, lineCellsLoop]
        simp only [if_neg hne, hw2, if_neg hxstep, if_pos hystep, hw3, hwy, hcells]
      · simp [hlen]
      · cases cells with
        | nil => simp at hlen
        | cons c cs => simpa using hlast
      · cases cells with
        | nil => simp at hlen
        | cons c cs =>
          simp only [List.head?_cons, Option.some.injEq] at hhead
          subst hhead
          refine List.Chain'.cons ?_ hchain
          refine ⟨?_, ?_, ?_⟩
          · simp
          · rcases hsy with h | h <;> rw [h] <;> simp
          · intro heq
            have := congrArg Prod.snd heq
            simp only at this
            rcases hsy with h | h <;> rw [h] at this <;> omega
      · intro c hc
        rcases List.mem_cons.1 hc with rfl | hc
        · exact hboxhead
        · exact hbox c hc

theorem lineFuel_eq (x0 y0 x1 y1 : Int) :
    ((lineFuel x0 y0 x1 y1 : Nat) : Int) = max |x1 - x0| |y1 - y0| + 1 := by
  unfold lineFuel
  push_cast
  simp [Int.natCast_natAbs]

/-- The cells of a line between two `int` endpoints whose coordinate distances
are at most `2^53`: enough fuel gives a trace of the stated length that starts
at the first endpoint, ends at the second, steps by one cell and stays in the
bounding box. -/
theorem lineCells_spec (x0 y0 x1 y1 : Int) (extra : Nat)
    (hx0 : IsInt64 x0) (hy0 : IsInt64 y0) (hx1 : IsInt64 x1) (hy1 : IsInt64 y1)
    (hdx : |x1 - x0| ≤ 2 ^ 53) (hdy : |y1 - y0| ≤ 2 ^ 53) :
    ∃ cells, lineCells (lineFuel x0 y0 x1 y1 + extra) x0 y0 x1 y1 = some cells ∧
      cells.length = lineFuel x0 y0 x1 y1 ∧ cells.head? = some (x0, y0) ∧
      cells.getLast? = some (x1, y1) ∧ List.Chain' StepOK cells ∧
      ∀ c ∈ cells, InBox x0 y0 x1 y1 c := by
  have hsx : (if x0 < x1 then (1 : Int) else -1) = 1 ∨ (if x0 < x1 then (1 : Int) else -1) = -1 := by
    split <;> simp
  have hsy : (if y0 < y1 then (1 : Int) else -1) = 1 ∨ (if y0 < y1 then (1 : Int) else -1) = -1 := by
    split <;> simp
  have hx : x1 = x0 + (if x0 < x1 then (1 : Int) else -1) * |x1 - x0| := by
    split
    · rw [abs_of_nonneg (by omega)]; ring
    · rw [abs_of_nonpos (by omega)]; ring
  have hy : y1 = y0 + (if y0 < y1 then (1 : Int) else -1) * |y1 - y0| := by
    split
    · rw [abs_of_nonneg (by omega)]; ring
    · rw [abs_of_nonpos (by omega)]; ring
  have hbox : ∀ c : Int × Int,
      (0 ≤ (if x0 < x1 then (1 : Int) else -1) * (x1 - c.1) ∧
        (if x0 < x1 then (1 : Int) else -1) * (x1 - c.1) ≤ |x1 - x0| ∧
        0 ≤ (if y0 < y1 then (1 : Int) else -1) * (y1 - c.2) ∧
        (if y0 < y1 then (1 : Int) else -1) * (y1 - c.2) ≤ |y1 - y0|) → InBox x0 y0 x1 y1 c := by
    intro c
    unfold InBox
    simp only [min_le_iff, le_max_iff]
    by_cases h1 : x0 < x1 <;> by_cases h2 : y0 < y1
    · rw [if_pos h1, if_pos h2, abs_of_nonneg (by omega), abs_of_nonneg (by omega)]; omega
    · rw [if_pos h1, if_neg h2, abs_of_nonneg (by omega), abs_of_nonpos (by omega)]; omega
    · rw [if_neg h1, if_pos h2, abs_of_nonpos (by omega), abs_of_nonneg (by omega)]; omega
    · rw [if_neg h1, if_neg h2, abs_of_nonpos (by omega), abs_of_nonpos (by omega)]; omega
  -- every cell between the endpoints is a pair of `int` values
  have hxr : ∀ k : Int, 0 ≤ k → k ≤ |x1 - x0| →
      IsInt64 (x1 - (if x0 < x1 then (1 : Int) else -1) * k) := by
    intro k hk0 hk1
    unfold IsInt64 at *
    by_cases h1 : x0 < x1
    · rw [if_pos h1]; rw [abs_of_nonneg (by omega)] at hk1; omega
    · rw [if_neg h1]; rw [abs_of_nonpos (by omega)] at hk1; omega
  have hyr : ∀ k : Int, 0 ≤ k → k ≤ |y1 - y0| →
      IsInt64 (y1 - (if y0 < y1 then (1 : Int) else -1) * k) := by
    intro k hk0 hk1
    unfold IsInt64 at *
    by_cases h1 : y0 < y1
    · rw [if_pos h1]; rw [abs_of_nonneg (by omega)] at hk1; omega
    · rw [if_neg h1]; rw [abs_of_nonpos (by omega)] at hk1; omega
  -- the set-up of `drawLine` is exact at these distances
  have hwx : wrap64 (x1 - x0) = x1 - x0 := by
    apply wrap64_eq
    have := abs_le.1 hdx
    unfold IsInt64; omega
  have hwy : wrap64 (y1 - y0) = y1 - y0 := by
    apply wrap64_eq
    have := abs_le.1 hdy
    unfold IsInt64; omega
  have hgx : goAbs (wrap64 (x1 - x0)) = |x1 - x0| := by rw [hwx]; exact goAbs_exact hdx
  have hgy : wrap64 (-goAbs (wrap64 (y1 - y0))) = -|y1 - y0| := by
    rw [hwy, goAbs_exact hdy]
    apply wrap64_eq
    have := abs_nonneg (y1 - y0)
    unfold IsInt64; omega
  have hge : wrap64 (|x1 - x0| + -|y1 - y0|) = |x1 - x0| + -|y1 - y0| := by
    apply wrap64_eq
    have := abs_nonneg (y1 - y0)
    have := abs_nonneg (x1 - x0)
    unfold IsInt64; omega
  have hdxabs : ((x1 - x0).natAbs : Int) = |x1 - x0| := Int.natCast_natAbs _
  have hdyabs : ((y1 - y0).natAbs : Int) = |y1 - y0| := Int.natCast_natAbs _
  unfold lineCells
  simp only [hgx, hgy, hge]
  by_cases hcase : |y1 - y0| ≤ |x1 - x0|
  · have hfuel : lineFuel x0 y0 x1 y1 = (x1 - x0).natAbs + 1 := by
      unfold lineFuel
      rw [max_eq_left]
      omega
    by_cases hzero : |x1 - x0| = 0
    · have hyz : |y1 - y0| = 0 := le_antisymm (hzero ▸ hcase) (abs_nonneg _)
      have ex : x0 = x1 := by
        have := abs_eq_zero.1 hzero; omega
      have ey : y0 = y1 := by
        have := abs_eq_zero.1 hyz; omega
      subst ex ey
      refine ⟨[(x0, y0)], ?_, ?_, rfl, rfl, List.chain'_singleton _, ?_⟩
      · rw [hfuel, show (x0 - x0).natAbs + 1 + extra = (extra + (x0 - x0).natAbs) + 1 by omega,
          lineCellsLoop]
        simp
      · rw [hfuel]; simp
      · intro c hc
        simp only [List.mem_singleton] at hc
        subst hc
        simp [InBox]
    · have hpos : 0 < |x1 - x0| := lt_of_le_of_ne (abs_nonneg _) (Ne.symm hzero)
      obtain ⟨cells, h1, h2, h3, h4, h5, h6⟩ :=
        @lineCellsLoop_major_x _ _ _ _ x1 y1 hsx hsy hpos (abs_nonneg (y1 - y0)) hcase hdx
          hxr hyr
          (x1 - x0).natAbs |y1 - y0| x0 y0 (|x1 - x0| + -|y1 - y0|) extra
          (by rw [hdxabs]; exact hx) hy (by rw [hdxabs]; ring)
          (by rw [hdxabs]; have : |y1 - y0| * |x1 - x0| - |x1 - x0| * |y1 - y0| = 0 := by ring
              rw [this]; linarith)
          (by rw [hdxabs]; have : |y1 - y0| * |x1 - x0| - |x1 - x0| * |y1 - y0| = 0 := by ring
              rw [this]; linarith)
          (by rw [hdxabs])
      refine ⟨cells, ?_, ?_, h3, h4, h5, fun c hc => hbox c (h6 c hc)⟩
      · rw [hfuel]; exact h1
      · rw [hfuel]; exact h2
  · have hcase' : |x1 - x0| ≤ |y1 - y0| := le_of_lt (not_le.1 hcase)
    have hpos : 0 < |y1 - y0| := lt_of_le_of_lt (abs_nonneg _) (not_le.1 hcase)
    have hfuel : lineFuel x0 y0 x1 y1 = (y1 - y0).natAbs + 1 := by
      unfold lineFuel
      rw [max_eq_right]
      omega
    obtain ⟨cells, h1, h2, h3, h4, h5, h6⟩ :=
      @lineCellsLoop_major_y _ _ _ _ x1 y1 hsx hsy (abs_nonneg (x1 - x0)) hpos hcase' hdy
        hxr hyr
        (y1 - y0).natAbs |x1 - x0| x0 y0 (|x1 - x0| + -|y1 - y0|) extra
        hx (by rw [hdyabs]; exact hy) (by rw [hdyabs]; ring)
        (by rw [hdyabs]; have : |y1 - y0| * |x1 - x0| - |x1 - x0| * |y1 - y0| = 0 := by ring
            rw [this]; linarith)
        (by rw [hdyabs]; have : |y1 - y0| * |x1 - x0| - |x1 - x0| * |y1 - y0| = 0 := by ring
            rw [this]; linarith)
        (by rw [hdyabs])
    refine ⟨cells, ?_, ?_, h3, h4, h5, fun c hc => hbox c (h6 c hc)⟩
    · rw [hfuel]; exact h1
    · rw [hfuel]; exact h2

/-- The loop of `drawLine` calls `putPixel` on the recorded cells, in order. -/
theorem drawLineLoop_eq_plotAll (dx dy sx sy x1 y1 : Int) (ch : Char) :
    ∀ (fuel : Nat) (buf : Buffer) (x y err : Int) (cells : List (Int × Int)),
      lineCellsLoop dx dy sx sy x1 y1 fuel x y err = some cells →
      drawLineLoop dx dy sx sy x1 y1 ch fuel buf x y err = plotAll ch cells buf := by
  intro fuel
  induction fuel with
  | zero => intro buf x y err cells h; simp [lineCellsLoop] at h
  | succ n ih =>
    intro buf x y err cells h
    rw [lineCellsLoop] at h
    rw [drawLineLoop]
    by_cases hend : x = x1 ∧ y = y1
    · rw [if_pos hend] at h
      cases h
      simp only [plotAll]
      cases putPixel buf x y ch with
      | error f => rfl
      | ok b => simp [hend]
    · rw [if_neg hend] at h
      simp only [] at h
      split at h
      · simp at h
      · rename_i cells' hcells
        cases h
        simp only [plotAll]
        cases putPixel buf x y ch with
        | error f => rfl
        | ok b =>
          simp only [if_neg hend]
          rw [← ih b _ _ _ cells' hcells]
          by_cases h1 : wrap64 (2 * err) ≥ dy <;> by_cases h2 : wrap64 (2 * err) ≤ dx <;>
            simp [h1, h2]

theorem drawLine_eq_plotAll (fuel : Nat) (buf : Buffer) (x0 y0 x1 y1 : Int) (ch : Char)
    (cells : List (Int × Int)) (h : lineCells fuel x0 y0 x1 y1 = some cells) :
    drawLine fuel buf x0 y0 x1 y1 ch = plotAll ch cells buf := by
  unfold drawLine
  unfold lineCells at h
  exact drawLineLoop_eq_plotAll _ _ _ _ _ _ ch fuel buf _ _ _ cells h

/-- When the loop of `drawLine` does not break within `fuel` iterations, the
call does not return. -/
theorem drawLineLoop_none (dx dy sx sy x1 y1 : Int) (ch : Char) :
    ∀ (fuel : Nat) (buf : Buffer) (x y err : Int),
      lineCellsLoop dx dy sx sy x1 y1 fuel x y err = none →
      ∀ out, drawLineLoop dx dy sx sy x1 y1 ch fuel buf x y err ≠ .ok out := by
  intro fuel
  induction fuel with
  | zero => intro buf x y err _ out h; simp [drawLineLoop] at h
  | succ n ih =>
    intro buf x y err h out hout
    rw [lineCellsLoop] at h
    rw [drawLineLoop] at hout
    by_cases hend : x = x1 ∧ y = y1
    · rw [if_pos hend] at h
      cases h
    · rw [if_neg hend] at h
      simp only [] at h
      split at h
      · rename_i hnone
        split at hout
        · cases hout
        · rename_i b _
          rw [if_neg hend] at hout
          refine ih b _ _ _ hnone out ?_
          rw [← hout]
          by_cases h1 : wrap64 (2 * err) ≥ dy <;> by_cases h2 : wrap64 (2 * err) ≤ dx <;>
            simp [h1, h2]
      · cases h

/-- A trace that is returned is the list of the cells plotted within the fuel. -/
theorem lineCellsLoop_eq_linePlotsLoop (dx dy sx sy x1 y1 : Int) :
    ∀ (fuel : Nat) (x y err : Int) (cells : List (Int × Int)),
      lineCellsLoop dx dy sx sy x1 y1 fuel x y err = some cells →
      linePlotsLoop dx dy sx sy x1 y1 fuel x y err = cells := by
  intro fuel
  induction fuel with
  | zero => intro x y err cells h; simp [lineCellsLoop] at h
  | succ n ih =>
    intro x y err cells h
    rw [lineCellsLoop] at h
    rw [linePlotsLoop]
    by_cases hend : x = x1 ∧ y = y1
    · rw [if_pos hend] at h ⊢
      cases h
      rfl
    · rw [if_neg hend] at h ⊢
      simp only [] at h ⊢
      split at h
      · cases h
      · rename_i cells' hcells
        cases h
        rw [ih _ _ _ cells' hcells]

theorem lineCells_eq_linePlots (fuel : Nat) (x0 y0 x1 y1 : Int) (cells : List (Int × Int))
    (h : lineCells fuel x0 y0 x1 y1 = some cells) : linePlots fuel x0 y0 x1 y1 = cells := by
  unfold linePlots
  unfold lineCells at h
  exact lineCellsLoop_eq_linePlotsLoop _ _ _ _ _ _ fuel _ _ _ cells h

/-! ### The line from `(0, 0)` to `(2^53 + 1, 2^53)` -/

theorem far_dx : goAbs (wrap64 ((2 ^ 53 + 1 : Int) - 0)) = 2 ^ 53 := by decide

theorem far_dy : wrap64 (-goAbs (wrap64 ((2 ^ 53 : Int) - 0))) = -2 ^ 53 := by decide

theorem far_err : wrap64 ((2 ^ 53 : Int) + -2 ^ 53) = 0 := by decide

theorem far_sx : (if (0 : Int) < 2 ^ 53 + 1 then (1 : Int) else -1) = 1 := by decide

theorem far_sy : (if (0 : Int) < 2 ^ 53 then (1 : Int) else -1) = 1 := by decide

/-- The set-up of `drawLine` for the line from `(0, 0)` to `(2^53 + 1, 2^53)`:
`float64(2^53 + 1)` is `2^53`, so `dx = 2^53`, `dy = -2^53` and `err = 0`. -/
theorem far_lineCells (fuel : Nat) :
    lineCells fuel 0 0 (2 ^ 53 + 1) (2 ^ 53) =
      lineCellsLoop (2 ^ 53) (-2 ^ 53) 1 1 (2 ^ 53 + 1) (2 ^ 53) fuel 0 0 0 := by
  unfold lineCells
  simp only [far_dx, far_dy, far_err, far_sx, far_sy]

theorem far_linePlots (n : Nat) :
    linePlots n 0 0 (2 ^ 53 + 1) (2 ^ 53) =
      linePlotsLoop (2 ^ 53) (-2 ^ 53) 1 1 (2 ^ 53 + 1) (2 ^ 53) n 0 0 0 := by
  unfold linePlots
  simp only [far_dx, far_dy, far_err, far_sx, far_sy]

theorem far_e2 : wrap64 (2 * 0) = 0 := by decide

theorem far_err1 : wrap64 (0 + -2 ^ 53) = -2 ^ 53 := by decide

theorem far_err2 : wrap64 (-2 ^ 53 + 2 ^ 53) = 0 := by decide

/-- On the diagonal with `err = 0` the loop for `(2^53 + 1, 2^53)` steps both
coordinates, comes back to `err = 0`, and never breaks. -/
theorem far_loop_none :
    ∀ (fuel : Nat) (k : Int),
      lineCellsLoop (2 ^ 53) (-2 ^ 53) 1 1 (2 ^ 53 + 1) (2 ^ 53) fuel k k 0 = none := by
  intro fuel
  induction fuel with
  | zero => intro k; rfl
  | succ n ih =>
    intro k
    have hne : ¬ (k = 2 ^ 53 + 1 ∧ k = 2 ^ 53) := by omega
    rw [lineCellsLoop]
    simp only [if_neg hne, far_e2]
    rw [if_pos (by decide), if_pos (by decide), if_pos (by decide), if_pos (by decide),
      far_err1, far_err2, ih]

/-- The first `n` iterations of that loop plot `n` cells. -/
theorem far_plots_length :
    ∀ (n : Nat) (k : Int),
      (linePlotsLoop (2 ^ 53) (-2 ^ 53) 1 1 (2 ^ 53 + 1) (2 ^ 53) n k k 0).length = n := by
  intro n
  induction n with
  | zero => intro k; rfl
  | succ n ih =>
    intro k
    have hne : ¬ (k = 2 ^ 53 + 1 ∧ k = 2 ^ 53) := by omega
    rw [linePlotsLoop]
    simp only [if_neg hne, far_e2]
    rw [if_pos (by decide), if_pos (by decide), if_pos (by decide), if_pos (by decide),
      far_err1, far_err2, List.length_cons, ih]

/-- The cell plotted by iteration `j` of that loop is `(k + j, k + j)`. -/
theorem far_plots_mem :
    ∀ (n : Nat) (k : Int) (j : Nat), j < n → 0 ≤ k → k + n ≤ 2 ^ 62 →
      (k + j, k + j) ∈ linePlotsLoop (2 ^ 53) (-2 ^ 53) 1 1 (2 ^ 53 + 1) (2 ^ 53) n k k 0 := by
  intro n
  induction n with
  | zero => intro k j hj; omega
  | succ n ih =>
    intro k j hj hk hn
    have hne : ¬ (k = 2 ^ 53 + 1 ∧ k = 2 ^ 53) := by omega
    have hw : wrap64 (k + 1) = k + 1 := wrap64_eq (by unfold IsInt64; push_cast at hn; omega)
    rw [linePlotsLoop]
    simp only [if_neg hne, far_e2]
    rw [if_pos (by decide), if_pos (by decide), if_pos (by decide), if_pos (by decide),
      far_err1, far_err2, hw]
    cases j with
    | zero => simp
    | succ i =>
      apply List.mem_cons_of_mem
      have := ih (k + 1) i (by omega) (by omega) (by push_cast at hn ⊢; omega)
      have e : k + ((i + 1 : Nat) : Int) = k + 1 + (i : Int) := by push_cast; ring
      rw [e]
      exact this

/-! ### Frames -/

theorem IsFrame.row {buf : Buffer} (h : IsFrame buf) {r : Nat} (hr : r < 30) :
    ∃ row, buf[r]? = some row ∧ row.length = 80 := by
  obtain ⟨hlen, hrows⟩ := h
  have hlen' : buf.length = 30 := hlen
  have hr' : r < buf.length := by omega
  exact ⟨buf[r], List.getElem?_eq_getElem hr', hrows _ (List.getElem_mem hr')⟩

theorem IsFrame.set {buf : Buffer} (h : IsFrame buf) (r c : Nat) (ch : Char) (row : List Char)
    (hrow : buf[r]? = some row) : IsFrame (buf.set r (row.set c ch)) := by
  obtain ⟨hlen, hrows⟩ := h
  refine ⟨by rw [List.length_set]; exact hlen, ?_⟩
  intro row' hmem
  rcases List.mem_or_eq_of_mem_set hmem with h | h
  · exact hrows _ h
  · rw [h, List.length_set]
    exact hrows _ (List.getElem?_mem hrow)

theorem IsFrame.cellAt_none {buf : Buffer} (h : IsFrame buf) {r c : Nat}
    (hrc : ¬ (r < 30 ∧ c < 80)) : cellAt buf r c = none := by
  unfold cellAt
  by_cases hr : r < 30
  · obtain ⟨row, hrow, hlen⟩ := h.row hr
    rw [hrow]
    simp only
    apply List.getElem?_eq_none
    omega
  · have : buf.length = 30 := h.1
    rw [List.getElem?_eq_none (by omega)]

/-- Two frames with the same glyph in every cell are the same buffer. -/
theorem IsFrame.ext {a b : Buffer} (ha : IsFrame a) (hb : IsFrame b)
    (h : ∀ r c : Nat, cellAt a r c = cellAt b r c) : a = b := by
  apply List.ext_getElem?
  intro r
  by_cases hr : r < 30
  · obtain ⟨ra, hra, hla⟩ := ha.row hr
    obtain ⟨rb, hrb, hlb⟩ := hb.row hr
    rw [hra, hrb]
    congr 1
    apply List.ext_getElem?
    intro c
    have := h r c
    unfold cellAt at this
    rw [hra, hrb] at this
    exact this
  · have h1 : a.length = 30 := ha.1
    have h2 : b.length = 30 := hb.1
    rw [List.getElem?_eq_none (by omega), List.getElem?_eq_none (by omega)]

theorem putPixel_outside (buf : Buffer) (x y : Int) (ch : Char) (h : ¬ InGrid (x, y)) :
    putPixel buf x y ch = .ok buf := by
  unfold putPixel
  rw [if_neg]
  intro hc
  exact h ⟨hc.1, hc.2.1, hc.2.2.1, hc.2.2.2⟩

/-- On a frame `putPixel` never faults; the result is a frame that holds `ch`
at the cell `(x, y)` when it is in the grid, and is unchanged elsewhere. -/
theorem putPixel_frame {buf : Buffer} (hbuf : IsFrame buf) (x y : Int) (ch : Char) :
    ∃ out, putPixel buf x y ch = .ok out ∧ IsFrame out ∧
      ∀ r c : Nat, (((c : Int), (r : Int)) = (x, y) ∧ InGrid (x, y) → cellAt out r c = some ch) ∧
        (¬ (((c : Int), (r : Int)) = (x, y) ∧ InGrid (x, y)) → cellAt out r c = cellAt buf r c) := by
  by_cases hg : InGrid (x, y)
  · obtain ⟨hx0, hx1, hy0, hy1⟩ := hg
    simp only [screenWidth, screenHeight] at hx0 hx1 hy0 hy1
    obtain ⟨row, hrow, hlen⟩ := hbuf.row (r := y.toNat) (by omega)
    refine ⟨_, putPixel_inside buf x y ch row ⟨hx0, hx1⟩ ⟨hy0, hy1⟩ hrow (by omega),
      hbuf.set _ _ ch row hrow, ?_⟩
    intro r c
    constructor
    · rintro ⟨heq, -⟩
      simp only [Prod.mk.injEq] at heq
      have hc : c = x.toNat := by omega
      have hr : r = y.toNat := by omega
      subst hc hr
      exact cellAt_set_same buf _ _ ch row hrow (by omega)
    · intro hne
      apply cellAt_set_other buf _ _ r c ch row hrow
      intro heq
      apply hne
      simp only [Prod.mk.injEq] at heq ⊢
      refine ⟨⟨by omega, by omega⟩, hx0, hx1, hy0, hy1⟩
  · refine ⟨buf, putPixel_outside buf x y ch hg, hbuf, ?_⟩
    intro r c
    exact ⟨fun h => absurd h.2 hg, fun _ => rfl⟩

/-- On a frame `plotAll` never faults; the result is a frame that holds `ch`
at every in-grid cell of the list and is unchanged elsewhere. -/
theorem plotAll_frame (ch : Char) (cells : List (Int × Int)) :
    ∀ {buf : Buffer}, IsFrame buf →
    ∃ out, plotAll ch cells buf = .ok out ∧ IsFrame out ∧
      ∀ r c : Nat,
        (((c : Int), (r : Int)) ∈ cells ∧ InGrid ((c : Int), (r : Int)) →
          cellAt out r c = some ch) ∧
        (¬ (((c : Int), (r : Int)) ∈ cells ∧ InGrid ((c : Int), (r : Int))) →
          cellAt out r c = cellAt buf r c) := by
  induction cells with
  | nil =>
    intro buf hbuf
    exact ⟨buf, rfl, hbuf, fun r c => ⟨fun h => absurd h.1 (List.not_mem_nil _), fun _ => rfl⟩⟩
  | cons cell cs ih =>
    intro buf hbuf
    obtain ⟨mid, hmid, hfmid, hcmid⟩ := putPixel_frame hbuf cell.1 cell.2 ch
    obtain ⟨out, hout, hfout, hcout⟩ := ih hfmid
    refine ⟨out, ?_, hfout, ?_⟩
    · simp only [plotAll, hmid, hout]
    · intro r c
      constructor
      · rintro ⟨hmem, hg⟩
        by_cases hin : ((c : Int), (r : Int)) ∈ cs
        · exact (hcout r c).1 ⟨hin, hg⟩
        · rw [(hcout r c).2 (fun h => hin h.1)]
          have heq : ((c : Int), (r : Int)) = cell := by
            rcases List.mem_cons.1 hmem with h | h
            · exact h
            · exact absurd h hin
          apply (hcmid r c).1
          refine ⟨heq, ?_⟩
          rw [← heq]; exact hg
      · intro hne
        have hin : ¬ (((c : Int), (r : Int)) ∈ cs ∧ InGrid ((c : Int), (r : Int))) :=
          fun h => hne ⟨List.mem_cons_of_mem _ h.1, h.2⟩
        rw [(hcout r c).2 hin]
        apply (hcmid r c).2
        rintro ⟨heq, hg⟩
        apply hne
        refine ⟨?_, ?_⟩
        · rw [heq]; exact List.mem_cons_self _ _
        · rw [heq]; exact hg

theorem shape_set (buf : Buffer) (r c : Nat) (ch : Char) (row : List Char)
    (hrow : buf[r]? = some row) : shape (buf.set r (row.set c ch)) = shape buf := by
  unfold shape
  apply List.ext_getElem?
  intro i
  rw [List.getElem?_map, List.getElem?_map]
  exact rowLength_set buf r c i ch row hrow

/-- Whatever its arguments, a call of `putPixel` that returns keeps the shape. -/
theorem putPixel_shape (buf : Buffer) (x y : Int) (ch : Char) (out : Buffer)
    (h : putPixel buf x y ch = .ok out) : shape out = shape buf := by
  unfold putPixel at h
  split at h
  · split at h
    · cases h
    · rename_i row hrow
      split at h
      · cases h
        exact shape_set buf _ _ ch row hrow
      · cases h
  · cases h
    rfl

/-- Whatever its arguments, a run of the loop of `drawLine` that returns keeps
the shape. -/
theorem drawLineLoop_shape (dx dy sx sy x1 y1 : Int) (ch : Char) :
    ∀ (fuel : Nat) (buf : Buffer) (x y err : Int) (out : Buffer),
      drawLineLoop dx dy sx sy x1 y1 ch fuel buf x y err = .ok out → shape out = shape buf := by
  intro fuel
  induction fuel with
  | zero => intro buf x y err out h; simp [drawLineLoop] at h
  | succ n ih =>
    intro buf x y err out h
    rw [drawLineLoop] at h
    split at h
    · cases h
    · rename_i mid hmid
      have hs := putPixel_shape buf x y ch mid hmid
      split at h
      · cases h; exact hs
      · rw [← hs]
        exact ih _ _ _ _ _ h

theorem makeBuffer_eq : makeBuffer = List.replicate 30 (List.replicate 80 ' ') := by decide

/-! ### Rasteriser -/

theorem isFrame_makeBuffer : IsFrame makeBuffer := by decide

theorem isFrame_iff_shape (buf : Buffer) :
    IsFrame buf ↔ shape buf = List.replicate 30 80 := by
  unfold IsFrame shape
  constructor
  · rintro ⟨hlen, hrows⟩
    rw [List.eq_replicate_iff]
    refine ⟨by simpa using hlen, ?_⟩
    intro n hn
    obtain ⟨row, hrow, rfl⟩ := List.mem_map.1 hn
    exact hrows row hrow
  · intro h
    rw [List.eq_replicate_iff] at h
    refine ⟨by simpa using h.1, ?_⟩
    intro row hrow
    exact h.2 _ (List.mem_map_of_mem _ hrow)

theorem drawLine_shape (fuel : Nat) (buf : Buffer) (x0 y0 x1 y1 : Int) (ch : Char)
    (out : Buffer) (h : drawLine fuel buf x0 y0 x1 y1 ch = .ok out) : shape out = shape buf := by
  unfold drawLine at h
  exact drawLineLoop_shape _ _ _ _ _ _ ch fuel buf _ _ _ out h

/-- When the loop does not break within the fuel, `drawLine` does not return. -/
theorem drawLine_none (fuel : Nat) (buf : Buffer) (x0 y0 x1 y1 : Int) (ch : Char)
    (h : lineCells fuel x0 y0 x1 y1 = none) (out : Buffer) :
    drawLine fuel buf x0 y0 x1 y1 ch ≠ .ok out := by
  unfold drawLine
  unfold lineCells at h
  exact drawLineLoop_none _ _ _ _ _ _ ch fuel buf _ _ _ h out

/-- The coordinates of two cells of the grid are `int` values at distances far
below `2^53`. -/
theorem bounds_of_inGrid {a b : Int × Int} (ha : InGrid a) (hb : InGrid b) :
    IsInt64 a.1 ∧ IsInt64 a.2 ∧ IsInt64 b.1 ∧ IsInt64 b.2 ∧
      |b.1 - a.1| ≤ 2 ^ 53 ∧ |b.2 - a.2| ≤ 2 ^ 53 := by
  unfold InGrid screenWidth screenHeight at ha hb
  unfold IsInt64
  refine ⟨by omega, by omega, by omega, by omega, ?_, ?_⟩
  · rw [abs_le]; omega
  · rw [abs_le]; omega

/-- With enough fuel `drawLine` on a frame, between `int` endpoints at
distances up to `2^53`, returns a frame: the buffer with the glyph at every
in-grid cell of the line. -/
theorem drawLine_frame {buf : Buffer} (hbuf : IsFrame buf) (x0 y0 x1 y1 : Int) (ch : Char)
    (extra : Nat) (hx0 : IsInt64 x0) (hy0 : IsInt64 y0) (hx1 : IsInt64 x1) (hy1 : IsInt64 y1)
    (hdx : |x1 - x0| ≤ 2 ^ 53) (hdy : |y1 - y0| ≤ 2 ^ 53) :
    ∃ cells out, lineCells (lineFuel x0 y0 x1 y1 + extra) x0 y0 x1 y1 = some cells ∧
      drawLine (lineFuel x0 y0 x1 y1 + extra) buf x0 y0 x1 y1 ch = .ok out ∧ IsFrame out ∧
      ∀ r c : Nat,
        (((c : Int), (r : Int)) ∈ cells ∧ InGrid ((c : Int), (r : Int)) →
          cellAt out r c = some ch) ∧
        (¬ (((c : Int), (r : Int)) ∈ cells ∧ InGrid ((c : Int), (r : Int))) →
          cellAt out r c = cellAt buf r c) := by
  obtain ⟨cells, hcells, -⟩ := lineCells_spec x0 y0 x1 y1 extra hx0 hy0 hx1 hy1 hdx hdy
  obtain ⟨out, hout, hf, hc⟩ := plotAll_frame ch cells hbuf
  refine ⟨cells, out, hcells, ?_, hf, hc⟩
  rw [drawLine_eq_plotAll _ buf x0 y0 x1 y1 ch cells hcells]
  exact hout

theorem toNat_cell {c : Int × Int} (h : InGrid c) :
    ((c.1.toNat : Int), (c.2.toNat : Int)) = c := by
  obtain ⟨h1, -, h2, -⟩ := h
  rw [Int.toNat_of_nonneg h1, Int.toNat_of_nonneg h2]

/-- C11 (counterexample): the endpoints `(0, 0)` and `(2^53 + 1, 2^53)` are
`int` values, `int(math.Abs(float64(2^53 + 1)))` is `2^53`, and `drawLine`
between them does not return, whatever the fuel. -/
theorem drawLine_far_never_returns :
    IsInt64 (2 ^ 53 + 1) ∧ IsInt64 (2 ^ 53) ∧
      goAbs (wrap64 ((2 ^ 53 + 1 : Int) - 0)) = 2 ^ 53 ∧
      ¬ ∃ fuel out, drawLine fuel makeBuffer 0 0 (2 ^ 53 + 1) (2 ^ 53) '#' = .ok out := by
  refine ⟨by decide, by decide, far_dx, ?_⟩
  rintro ⟨fuel, out, h⟩
  refine drawLine_none fuel makeBuffer 0 0 (2 ^ 53 + 1) (2 ^ 53) '#' ?_ out h
  rw [far_lineCells]
  exact far_loop_none fuel 0

/-- C11 (amended): `drawLine` terminates exactly at the endpoint for every
pair of `int` endpoints whose coordinate distances are at most `2^53` (so for
every pair of cells of the grid): with `lineFuel` iterations (or any larger
fuel) the loop breaks, the cells it plots start with `(x0, y0)` and end with
`(x1, y1)`, and on a frame the call returns a frame in which both endpoints
hold the glyph when they are in the grid. -/
theorem drawLine_ends_at_endpoint (x0 y0 x1 y1 : Int) (extra : Nat) (buf : Buffer) (ch : Char)
    (hbuf : IsFrame buf)
    (hx0 : IsInt64 x0) (hy0 : IsInt64 y0) (hx1 : IsInt64 x1) (hy1 : IsInt64 y1)
    (hdx : |x1 - x0| ≤ 2 ^ 53) (hdy : |y1 - y0| ≤ 2 ^ 53) :
    ∃ cells out, lineCells (lineFuel x0 y0 x1 y1 + extra) x0 y0 x1 y1 = some cells ∧
      (∀ b, drawLine (lineFuel x0 y0 x1 y1 + extra) b x0 y0 x1 y1 ch = plotAll ch cells b) ∧
      cells.head? = some (x0, y0) ∧ cells.getLast? = some (x1, y1) ∧
      drawLine (lineFuel x0 y0 x1 y1 + extra) buf x0 y0 x1 y1 ch = .ok out ∧ IsFrame out ∧
      (InGrid (x0, y0) → cellAt out y0.toNat x0.toNat = some ch) ∧
      (InGrid (x1, y1) → cellAt out y1.toNat x1.toNat = some ch) := by
  obtain ⟨cells, out, hcells, hout, hf, hc⟩ :=
    drawLine_frame hbuf x0 y0 x1 y1 ch extra hx0 hy0 hx1 hy1 hdx hdy
  obtain ⟨cells', hcells', -, hhead, hlast, -, -⟩ :=
    lineCells_spec x0 y0 x1 y1 extra hx0 hy0 hx1 hy1 hdx hdy
  rw [hcells] at hcells'
  cases hcells'
  refine ⟨cells, out, hcells, fun b => drawLine_eq_plotAll _ b x0 y0 x1 y1 ch cells hcells,
    hhead, hlast, hout, hf, ?_, ?_⟩
  · intro hg
    apply (hc _ _).1
    rw [toNat_cell (c := (x0, y0)) hg]
    exact ⟨List.mem_of_mem_head? hhead, hg⟩
  · intro hg
    apply (hc _ _).1
    rw [toNat_cell (c := (x1, y1)) hg]
    exact ⟨List.mem_of_getLast?_eq_some hlast, hg⟩

/-- Witness for C11: the line from `(2, 3)` to `(7, 1)` on a fresh buffer. -/
theorem drawLine_ends_at_endpoint_witness :
    IsFrame makeBuffer ∧ |(7 : Int) - 2| ≤ 2 ^ 53 ∧ |(1 : Int) - 3| ≤ 2 ^ 53 ∧
    ∃ cells out, lineCells (lineFuel 2 3 7 1 + 0) 2 3 7 1 = some cells ∧
      (∀ b, drawLine (lineFuel 2 3 7 1 + 0) b 2 3 7 1 '#' = plotAll '#' cells b) ∧
      cells.head? = some (2, 3) ∧ cells.getLast? = some (7, 1) ∧
      drawLine (lineFuel 2 3 7 1 + 0) makeBuffer 2 3 7 1 '#' = .ok out ∧ IsFrame out ∧
      (InGrid (2, 3) → cellAt out (3 : Int).toNat (2 : Int).toNat = some '#') ∧
      (InGrid (7, 1) → cellAt out (1 : Int).toNat (7 : Int).toNat = some '#') :=
  ⟨by decide, by decide, by decide,
    drawLine_ends_at_endpoint 2 3 7 1 0 makeBuffer '#' (by decide) (by decide) (by decide)
      (by decide) (by decide) (by decide) (by decide)⟩

/-- C17 (counterexample): between `(0, 0)` and `(2^53 + 1, 2^53)` the larger
distance plus one is `2^53 + 2`, yet after `2^53 + 2` iterations the loop of
`drawLine` has not broken, and its first `2^53 + 3` iterations plot `2^53 + 3`
cells. -/
theorem drawLine_far_cell_count :
    max |(2 ^ 53 + 1 : Int) - 0| |(2 ^ 53 : Int) - 0| + 1 = 2 ^ 53 + 2 ∧
      lineCells (2 ^ 53 + 2) 0 0 (2 ^ 53 + 1) (2 ^ 53) = none ∧
      (linePlots (2 ^ 53 + 3) 0 0 (2 ^ 53 + 1) (2 ^ 53)).length = 2 ^ 53 + 3 := by
  refine ⟨by decide, ?_, ?_⟩
  · rw [far_lineCells]
    exact far_loop_none _ 0
  · rw [far_linePlots]
    exact far_plots_length _ 0

/-- C17 (amended): between `int` endpoints whose coordinate distances are at
most `2^53` (so between any two cells of the grid) `drawLine` advances a single
step per axis: each cell it plots after the first differs from the cell plotted
before it by at most 1 in x and at most 1 in y and is not equal to it, and the
number of cells it plots is `max |x1 - x0| |y1 - y0| + 1`. -/
theorem drawLine_single_steps (x0 y0 x1 y1 : Int) (extra : Nat)
    (hx0 : IsInt64 x0) (hy0 : IsInt64 y0) (hx1 : IsInt64 x1) (hy1 : IsInt64 y1)
    (hdx : |x1 - x0| ≤ 2 ^ 53) (hdy : |y1 - y0| ≤ 2 ^ 53) :
    ∃ cells, lineCells (lineFuel x0 y0 x1 y1 + extra) x0 y0 x1 y1 = some cells ∧
      (∀ buf ch,
        drawLine (lineFuel x0 y0 x1 y1 + extra) buf x0 y0 x1 y1 ch = plotAll ch cells buf) ∧
      List.Chain' StepOK cells ∧
      (cells.length : Int) = max |x1 - x0| |y1 - y0| + 1 := by
  obtain ⟨cells, hcells, hlen, -, -, hchain, -⟩ :=
    lineCells_spec x0 y0 x1 y1 extra hx0 hy0 hx1 hy1 hdx hdy
  refine ⟨cells, hcells, fun buf ch => drawLine_eq_plotAll _ buf x0 y0 x1 y1 ch cells hcells,
    hchain, ?_⟩
  rw [hlen]
  exact lineFuel_eq x0 y0 x1 y1

/-- Witness for C17: the line from `(2, 3)` to `(7, 1)` plots six cells. -/
theorem drawLine_single_steps_witness :
    |(7 : Int) - 2| ≤ 2 ^ 53 ∧ |(1 : Int) - 3| ≤ 2 ^ 53 ∧
    ∃ cells, lineCells (lineFuel 2 3 7 1 + 0) 2 3 7 1 = some cells ∧
      (∀ buf ch, drawLine (lineFuel 2 3 7 1 + 0) buf 2 3 7 1 ch = plotAll ch cells buf) ∧
      List.Chain' StepOK cells ∧
      (cells.length : Int) = max |(7 : Int) - 2| |(1 : Int) - 3| + 1 :=
  ⟨by decide, by decide,
    drawLine_single_steps 2 3 7 1 0 (by decide) (by decide) (by decide) (by decide)
      (by decide) (by decide)⟩

theorem inGrid_of_inBox {x0 y0 x1 y1 : Int} (h0 : InGrid (x0, y0)) (h1 : InGrid (x1, y1))
    {c : Int × Int} (hc : InBox x0 y0 x1 y1 c) : InGrid c := by
  unfold InGrid at *
  unfold InBox at hc
  simp only [min_le_iff, le_max_iff] at hc
  simp only at h0 h1
  omega

/-- C18 (counterexample): between `(0, 0)` and `(2^53 + 1, 2^53)` the loop of
`drawLine` plots, within its first `2^53 + 2` iterations, the cell
`(2^53 + 1, 2^53 + 1)`, which is outside the bounding box of the endpoints. -/
theorem drawLine_far_cell_outside_box :
    ((2 ^ 53 + 1 : Int), (2 ^ 53 + 1 : Int)) ∈ linePlots (2 ^ 53 + 2) 0 0 (2 ^ 53 + 1) (2 ^ 53) ∧
      ¬ InBox 0 0 (2 ^ 53 + 1) (2 ^ 53) (2 ^ 53 + 1, 2 ^ 53 + 1) := by
  constructor
  · rw [far_linePlots]
    have h := far_plots_mem (2 ^ 53 + 2) 0 (2 ^ 53 + 1) (by decide) (le_refl 0) (by decide)
    have e : (0 : Int) + ((2 ^ 53 + 1 : Nat) : Int) = 2 ^ 53 + 1 := by decide
    rw [e] at h
    exact h
  · unfold InBox
    decide

/-- C18 (amended): between `int` endpoints whose coordinate distances are at
most `2^53`, every cell that `drawLine` plots lies in the bounding box of the
endpoints; hence when both endpoints are inside the 80 x 30 grid every plotted
cell is inside the grid, so the bound check of `putPixel` discards none. -/
theorem drawLine_cells_in_box (x0 y0 x1 y1 : Int) (extra : Nat)
    (hx0 : IsInt64 x0) (hy0 : IsInt64 y0) (hx1 : IsInt64 x1) (hy1 : IsInt64 y1)
    (hdx : |x1 - x0| ≤ 2 ^ 53) (hdy : |y1 - y0| ≤ 2 ^ 53) :
    ∃ cells, lineCells (lineFuel x0 y0 x1 y1 + extra) x0 y0 x1 y1 = some cells ∧
      (∀ buf ch,
        drawLine (lineFuel x0 y0 x1 y1 + extra) buf x0 y0 x1 y1 ch = plotAll ch cells buf) ∧
      (∀ c ∈ cells, InBox x0 y0 x1 y1 c) ∧
      (InGrid (x0, y0) → InGrid (x1, y1) → ∀ c ∈ cells, InGrid c) := by
  obtain ⟨cells, hcells, -, -, -, -, hbox⟩ :=
    lineCells_spec x0 y0 x1 y1 extra hx0 hy0 hx1 hy1 hdx hdy
  exact ⟨cells, hcells, fun buf ch => drawLine_eq_plotAll _ buf x0 y0 x1 y1 ch cells hcells,
    hbox, fun h0 h1 c hc => inGrid_of_inBox h0 h1 (hbox c hc)⟩

/-- Witness for C18: the line from `(2, 3)` to `(7, 1)`. -/
theorem drawLine_cells_in_box_witness :
    InGrid (2, 3) ∧ InGrid (7, 1) ∧
      ∃ cells, lineCells (lineFuel 2 3 7 1 + 0) 2 3 7 1 = some cells ∧
        ∀ c ∈ cells, InGrid c := by
  obtain ⟨cells, h1, -, -, h4⟩ :=
    drawLine_cells_in_box 2 3 7 1 0 (by decide) (by decide) (by decide) (by decide)
      (by decide) (by decide)
  exact ⟨by decide, by decide, cells, h1, h4 (by decide) (by decide)⟩

/-- C12: `putPixel` with a coordinate outside `[0,80) x [0,30)` returns the
buffer unchanged and indexes nothing (no fault), for every buffer. -/
theorem putPixel_out_of_grid (buf : Buffer) (x y : Int) (ch : Char)
    (h : x < 0 ∨ x ≥ 80 ∨ y < 0 ∨ y ≥ 30) : putPixel buf x y ch = .ok buf := by
  apply putPixel_outside
  unfold InGrid screenWidth screenHeight
  simp only
  omega

/-- Witness for C12: column 80 is outside the grid. -/
theorem putPixel_out_of_grid_witness :
    ((80 : Int) < 0 ∨ (80 : Int) ≥ 80 ∨ (5 : Int) < 0 ∨ (5 : Int) ≥ 30) ∧
      putPixel makeBuffer 80 5 '#' = .ok makeBuffer :=
  ⟨by decide, putPixel_out_of_grid makeBuffer 80 5 '#' (by decide)⟩

/-- C13: `putPixel` with an in-grid coordinate on a 30 x 80 buffer sets exactly
that cell, whatever it held: the result is a frame with `ch` at row `y`, column
`x`, and every other cell equal to the cell of `buf`. -/
theorem putPixel_sets_cell (buf : Buffer) (x y : Int) (ch : Char) (hbuf : IsFrame buf)
    (hx : 0 ≤ x ∧ x < 80) (hy : 0 ≤ y ∧ y < 30) :
    ∃ out, putPixel buf x y ch = .ok out ∧ IsFrame out ∧
      cellAt out y.toNat x.toNat = some ch ∧
      ∀ r c : Nat, (r, c) ≠ (y.toNat, x.toNat) → cellAt out r c = cellAt buf r c := by
  have hg : InGrid (x, y) := ⟨hx.1, hx.2, hy.1, hy.2⟩
  obtain ⟨out, hout, hf, hc⟩ := putPixel_frame hbuf x y ch
  refine ⟨out, hout, hf, ?_, ?_⟩
  · apply (hc _ _).1
    exact ⟨toNat_cell (c := (x, y)) hg, hg⟩
  · intro r c hne
    apply (hc r c).2
    rintro ⟨heq, -⟩
    apply hne
    simp only [Prod.mk.injEq] at heq ⊢
    omega

/-- Witness for C13: the cell `(7, 3)` of a fresh buffer. -/
theorem putPixel_sets_cell_witness :
    IsFrame makeBuffer ∧
    ∃ out, putPixel makeBuffer 7 3 '4' = .ok out ∧ IsFrame out ∧
      cellAt out (3 : Int).toNat (7 : Int).toNat = some '4' ∧
      ∀ r c : Nat, (r, c) ≠ ((3 : Int).toNat, (7 : Int).toNat) →
        cellAt out r c = cellAt makeBuffer r c :=
  ⟨by decide, putPixel_sets_cell makeBuffer 7 3 '4' (by decide) (by decide) (by decide)⟩

/-- C14: the label glyph of the face with 0-based index `i < 20` is the
character with code `'0' + ((i + 1) mod 10)`, the last decimal digit of the
1-based index; it is one of `'0'..'9'`, and faces 10 and 20 get `'0'`. -/
theorem faceLabel_last_digit (i : Nat) (h : i < 20) :
    faceLabel i = Char.ofNat (48 + (i + 1) % 10) ∧
      (Nat.toDigits 10 (i + 1)).getLast? = some (faceLabel i) ∧
      faceLabel i ∈ ['0', '1', '2', '3', '4', '5', '6', '7', '8', '9'] ∧
      faceLabel 9 = '0' ∧ faceLabel 19 = '0' := by
  have key : ∀ j < 20, faceLabel j = Char.ofNat (48 + (j + 1) % 10) ∧
      (Nat.toDigits 10 (j + 1)).getLast? = some (faceLabel j) ∧
      faceLabel j ∈ ['0', '1', '2', '3', '4', '5', '6', '7', '8', '9'] := by decide
  exact ⟨(key i h).1, (key i h).2.1, (key i h).2.2, by decide, by decide⟩

/-- Witness for C14: face 10 (index 9). -/
theorem faceLabel_last_digit_witness :
    (9 < 20) ∧ faceLabel 9 = Char.ofNat (48 + (9 + 1) % 10) :=
  ⟨by decide, (faceLabel_last_digit 9 (by decide)).1⟩

/-! ### Rotations and the projected vertices -/

theorem normSq_rotateX (p : Vec3) (a : ℝ) : normSq (rotateX p a) = normSq p := by
  unfold normSq rotateX
  simp only
  linear_combination (p.y ^ 2 + p.z ^ 2) * Real.sin_sq_add_cos_sq a

theorem normSq_rotateY (p : Vec3) (a : ℝ) : normSq (rotateY p a) = normSq p := by
  unfold normSq rotateY
  simp only
  linear_combination (p.x ^ 2 + p.z ^ 2) * Real.sin_sq_add_cos_sq a

theorem normSq_rotateZ (p : Vec3) (a : ℝ) : normSq (rotateZ p a) = normSq p := by
  unfold normSq rotateZ
  simp only
  linear_combination (p.x ^ 2 + p.y ^ 2) * Real.sin_sq_add_cos_sq a

theorem normSq_rotateFrame (p : Vec3) (angle : ℝ) : normSq (rotateFrame p angle) = normSq p := by
  unfold rotateFrame
  rw [normSq_rotateZ, normSq_rotateY, normSq_rotateX]

theorem sqrt_three_sq : Real.sqrt 3 * Real.sqrt 3 = 3 := Real.mul_self_sqrt (by norm_num)

theorem sqrt_five_lt : Real.sqrt 5 < 2.24 := by
  rw [Real.sqrt_lt' (by norm_num)]; norm_num

/-- A coordinate of a point close enough to the origin has a normalised device
coordinate strictly between `-1` and `1`. -/
theorem ndc_bounds {a z r : ℝ} (ha : a ^ 2 + z ^ 2 ≤ r) (hr : r ≤ 3.62) :
    -1 < a * Real.sqrt 3 / (z + 4) ∧ a * Real.sqrt 3 / (z + 4) < 1 := by
  have h3 := sqrt_three_sq
  have hz : 0 < z + 4 := by nlinarith [sq_nonneg a, sq_nonneg (z - 2)]
  have hsq : (a * Real.sqrt 3) ^ 2 < (z + 4) ^ 2 := by
    have e : (a * Real.sqrt 3) ^ 2 = 3 * a ^ 2 := by
      calc (a * Real.sqrt 3) ^ 2 = a ^ 2 * (Real.sqrt 3 * Real.sqrt 3) := by ring
        _ = 3 * a ^ 2 := by rw [h3]; ring
    rw [e]
    nlinarith [sq_nonneg (z + 1)]
  obtain ⟨h1, h2⟩ := abs_lt_of_sq_lt_sq' hsq hz.le
  constructor
  · rw [lt_div_iff₀ hz]; linarith
  · rw [div_lt_one hz]; exact h2

/-- Truncation of a value in `[0, n)` is in `[0, n)`. -/
theorem goInt_range {v : ℝ} {n : Int} (h0 : 0 ≤ v) (h1 : v < n) :
    0 ≤ goInt v ∧ goInt v < n := by
  unfold goInt
  rw [if_pos h0]
  exact ⟨Int.floor_nonneg.2 h0, Int.floor_lt.2 h1⟩

/-- Every point whose squared distance to the origin is at most 3.62 is
projected to a valid cell. -/
theorem project_ok_of_normSq (p : Vec3) (h : normSq p ≤ 3.62) : (project p).2.2 = true := by
  unfold normSq at h
  have hx := ndc_bounds (a := p.x) (z := p.z) (r := normSq p) (by unfold normSq; nlinarith [sq_nonneg p.y])
    (by unfold normSq; exact h)
  have hy := ndc_bounds (a := p.y) (z := p.z) (r := normSq p) (by unfold normSq; nlinarith [sq_nonneg p.x])
    (by unfold normSq; exact h)
  have hz : ¬ (p.z + 4 ≤ 0.1) := by
    have : 0 < p.z + 2 := by nlinarith [sq_nonneg p.x, sq_nonneg p.y, sq_nonneg (p.z - 2)]
    intro hc
    norm_num at hc
    linarith
  have c4 : (4.0 : ℝ) = 4 := by norm_num
  have c1 : (1.0 : ℝ) = 1 := by norm_num
  have cw : ((screenWidth - 1 : Int) : ℝ) = 79 := by simp [screenWidth]
  have chh : ((screenHeight - 1 : Int) : ℝ) = 29 := by simp [screenHeight]
  unfold project zCamera
  simp only [scale_eq, cw, chh]
  simp only [c4, c1]
  rw [if_neg hz]
  obtain ⟨hx1, hx2⟩ := hx
  obtain ⟨hy1, hy2⟩ := hy
  have sxr := goInt_range (v := (p.x * Real.sqrt 3 / (p.z + 4) + 1) * 0.5 * 79 + 0.5) (n := 80)
    (by nlinarith) (by push_cast; nlinarith)
  have syr := goInt_range (v := (1 - (p.y * Real.sqrt 3 / (p.z + 4) + 1) * 0.5) * 29 + 0.5) (n := 30)
    (by nlinarith) (by push_cast; nlinarith)
  rw [if_neg]
  simp only [screenWidth, screenHeight]
  omega

theorem normSq_vertices : ∀ v ∈ vertices, normSq v = phi + 2 := by
  rw [vertices_eq]
  intro v hv
  simp only [List.mem_cons, List.mem_singleton, List.not_mem_nil, or_false] at hv
  rcases hv with rfl | rfl | rfl | rfl | rfl | rfl | rfl | rfl | rfl | rfl | rfl | rfl <;>
    (unfold normSq; simp only; linear_combination phi_sq)

theorem phi_add_two_le : phi + 2 ≤ 3.62 := by
  have := sqrt_five_lt
  unfold phi
  norm_num
  linarith

/-- C19: no vertex is ever rejected by the projector: for every real angle
`t` and every one of the 12 vertices, the rotated vertex is projected with a
true validity flag, so every entry of `projVerts` is valid and the edge loop
skips no edge. -/
theorem vertices_always_projected (t : ℝ) :
    (∀ v ∈ vertices,
      (project (rotateZ (rotateY (rotateX v (t * 0.8)) (t * 1.1)) (t * 0.6))).2.2 = true) ∧
    ∀ r ∈ projVerts t, r.2.2 = true := by
  have key : ∀ v ∈ vertices, (project (rotateFrame v t)).2.2 = true := by
    intro v hv
    apply project_ok_of_normSq
    rw [normSq_rotateFrame, normSq_vertices v hv]
    exact phi_add_two_le
  refine ⟨key, ?_⟩
  intro r hr
  unfold projVerts at hr
  obtain ⟨v, hv, rfl⟩ := List.mem_map.1 hr
  exact key v hv

/-- C20: each axis rotation preserves the squared distance to the origin
`x^2 + y^2 + z^2`, and so does the rotation of one frame (about X, then Y, then
Z). -/
theorem rotation_preserves_norm (p : Vec3) (a : ℝ) :
    normSq (rotateX p a) = normSq p ∧ normSq (rotateY p a) = normSq p ∧
      normSq (rotateZ p a) = normSq p ∧
      normSq (rotateZ (rotateY (rotateX p (a * 0.8)) (a * 1.1)) (a * 0.6)) = normSq p :=
  ⟨normSq_rotateX p a, normSq_rotateY p a, normSq_rotateZ p a, normSq_rotateFrame p a⟩

/-! ### The frame loop -/

theorem project_inGrid (p : Vec3) (h : (project p).2.2 = true) :
    InGrid ((project p).1, (project p).2.1) := by
  unfold project at h ⊢
  simp only [] at h ⊢
  split
  · rename_i hz
    rw [if_pos hz] at h
    simp at h
  · rename_i hz
    rw [if_neg hz] at h
    split
    · rename_i hb
      rw [if_pos hb] at h
      simp at h
    · rename_i hb
      unfold InGrid
      simp only
      omega

theorem lineFuel_le_of_inGrid {a b : Int × Int} (ha : InGrid a) (hb : InGrid b) :
    lineFuel a.1 a.2 b.1 b.2 ≤ 80 := by
  unfold InGrid screenWidth screenHeight at ha hb
  unfold lineFuel
  have h1 : (b.1 - a.1).natAbs ≤ 79 := by omega
  have h2 : (b.2 - a.2).natAbs ≤ 79 := by omega
  have := max_le h1 h2
  omega

/-- The edge loop on a non-empty list: its first edge, then the rest. -/
theorem drawEdges_cons (fuel : Nat) (pv : List (Int × Int × Bool)) (e : Nat × Nat)
    (rest : List (Nat × Nat)) (buf : Buffer) :
    drawEdges fuel pv (e :: rest) buf =
      match drawEdges fuel pv [e] buf with
      | .error f => .error f
      | .ok b => drawEdges fuel pv rest b := by
  simp only [drawEdges]
  split
  · split
    · rfl
    · split <;> rfl
  · rfl

/-- One edge on a frame: the step never faults, and it writes `'#'` on a set of
cells that does not depend on the buffer. -/
theorem drawEdges_single {fuel : Nat} {pv : List (Int × Int × Bool)} (hfuel : 80 ≤ fuel)
    (hpv : ∀ r ∈ pv, r.2.2 = true → InGrid (r.1, r.2.1)) {e : Nat × Nat}
    (he : e.1 < pv.length ∧ e.2 < pv.length) :
    ∃ M : Nat → Nat → Prop, ∀ buf, IsFrame buf →
      ∃ out, drawEdges fuel pv [e] buf = .ok out ∧ IsFrame out ∧
        ∀ r c : Nat, (M r c → cellAt out r c = some '#') ∧
          (¬ M r c → cellAt out r c = cellAt buf r c) := by
  have ha : pv[e.1]? = some pv[e.1] := List.getElem?_eq_getElem he.1
  have hb : pv[e.2]? = some pv[e.2] := List.getElem?_eq_getElem he.2
  by_cases hok : (!(pv[e.1]).2.2 || !(pv[e.2]).2.2) = true
  · refine ⟨fun _ _ => False, fun buf hbuf => ⟨buf, ?_, hbuf, fun r c => ⟨False.elim, fun _ => rfl⟩⟩⟩
    simp only [drawEdges, ha, hb, hok, if_true]
  · have hoka : (pv[e.1]).2.2 = true := by
      cases h : (pv[e.1]).2.2 <;> simp [h] at hok ⊢
    have hokb : (pv[e.2]).2.2 = true := by
      cases h : (pv[e.2]).2.2 <;> simp [h] at hok ⊢
    have hga := hpv _ (List.getElem_mem he.1) hoka
    have hgb := hpv _ (List.getElem_mem he.2) hokb
    have hle := lineFuel_le_of_inGrid hga hgb
    simp only at hle
    obtain ⟨extra, hextra⟩ : ∃ extra, fuel = lineFuel (pv[e.1]).1 (pv[e.1]).2.1 (pv[e.2]).1
        (pv[e.2]).2.1 + extra :=
      ⟨fuel - lineFuel (pv[e.1]).1 (pv[e.1]).2.1 (pv[e.2]).1 (pv[e.2]).2.1, by omega⟩
    obtain ⟨i1, i2, i3, i4, d1, d2⟩ := bounds_of_inGrid hga hgb
    obtain ⟨cells, hcells, -⟩ :=
      lineCells_spec (pv[e.1]).1 (pv[e.1]).2.1 (pv[e.2]).1 (pv[e.2]).2.1 extra
        i1 i2 i3 i4 d1 d2
    rw [← hextra] at hcells
    refine ⟨fun r c => ((c : Int), (r : Int)) ∈ cells ∧ InGrid ((c : Int), (r : Int)),
      fun buf hbuf => ?_⟩
    obtain ⟨out, hout, hf, hc⟩ := plotAll_frame '#' cells hbuf
    refine ⟨out, ?_, hf, hc⟩
    simp only [drawEdges, ha, hb, hok]
    rw [drawLine_eq_plotAll fuel buf _ _ _ _ '#' cells hcells, hout]
    simp

/-- The edge loop on a frame never faults and returns a frame. -/
theorem drawEdges_frame {fuel : Nat} {pv : List (Int × Int × Bool)} (hfuel : 80 ≤ fuel)
    (hpv : ∀ r ∈ pv, r.2.2 = true → InGrid (r.1, r.2.1)) :
    ∀ (edges : List (Nat × Nat)), (∀ e ∈ edges, e.1 < pv.length ∧ e.2 < pv.length) →
      ∀ buf, IsFrame buf → ∃ out, drawEdges fuel pv edges buf = .ok out ∧ IsFrame out := by
  intro edges
  induction edges with
  | nil => intro _ buf hbuf; exact ⟨buf, rfl, hbuf⟩
  | cons e rest ih =>
    intro hv buf hbuf
    obtain ⟨M, hM⟩ := drawEdges_single hfuel hpv (hv e (List.mem_cons_self _ _))
    obtain ⟨mid, hmid, hfmid, -⟩ := hM buf hbuf
    obtain ⟨out, hout, hfout⟩ := ih (fun e' he' => hv e' (List.mem_cons_of_mem _ he')) mid hfmid
    refine ⟨out, ?_, hfout⟩
    rw [drawEdges_cons, hmid]
    exact hout

/-- The edge loop gives the same frame for every order of the same edges. -/
theorem drawEdges_perm {fuel : Nat} {pv : List (Int × Int × Bool)} (hfuel : 80 ≤ fuel)
    (hpv : ∀ r ∈ pv, r.2.2 = true → InGrid (r.1, r.2.1))
    {l₁ l₂ : List (Nat × Nat)} (hperm : l₁.Perm l₂) :
    (∀ e ∈ l₁, e.1 < pv.length ∧ e.2 < pv.length) →
      ∀ buf, IsFrame buf →
        ∃ out, drawEdges fuel pv l₁ buf = .ok out ∧ drawEdges fuel pv l₂ buf = .ok out ∧
          IsFrame out := by
  induction hperm with
  | nil => intro _ buf hbuf; exact ⟨buf, rfl, rfl, hbuf⟩
  | cons e _ ih =>
    intro hv buf hbuf
    obtain ⟨M, hM⟩ := drawEdges_single hfuel hpv (hv e (List.mem_cons_self _ _))
    obtain ⟨mid, hmid, hfmid, -⟩ := hM buf hbuf
    obtain ⟨out, h1, h2, hfout⟩ := ih (fun e' he' => hv e' (List.mem_cons_of_mem _ he')) mid hfmid
    refine ⟨out, ?_, ?_, hfout⟩
    · rw [drawEdges_cons, hmid]; exact h1
    · rw [drawEdges_cons, hmid]; exact h2
  | swap x y l =>
    intro hv buf hbuf
    have hy := hv y (List.mem_cons_self _ _)
    have hx := hv x (List.mem_cons_of_mem _ (List.mem_cons_self _ _))
    obtain ⟨Mx, hMx⟩ := drawEdges_single hfuel hpv hx
    obtain ⟨My, hMy⟩ := drawEdges_single hfuel hpv hy
    obtain ⟨by1, hby1, hfy1, hcy1⟩ := hMy buf hbuf
    obtain ⟨byx, hbyx, hfyx, hcyx⟩ := hMx by1 hfy1
    obtain ⟨bx1, hbx1, hfx1, hcx1⟩ := hMx buf hbuf
    obtain ⟨bxy, hbxy, hfxy, hcxy⟩ := hMy bx1 hfx1
    have heq : byx = bxy := by
      apply IsFrame.ext hfyx hfxy
      intro r c
      by_cases mx : Mx r c
      · rw [(hcyx r c).1 mx]
        by_cases my : My r c
        · rw [(hcxy r c).1 my]
        · rw [(hcxy r c).2 my, (hcx1 r c).1 mx]
      · rw [(hcyx r c).2 mx]
        by_cases my : My r c
        · rw [(hcy1 r c).1 my, (hcxy r c).1 my]
        · rw [(hcy1 r c).2 my, (hcxy r c).2 my, (hcx1 r c).2 mx]
    obtain ⟨out, hout, hfout⟩ := drawEdges_frame hfuel hpv l
      (fun e' he' => hv e' (List.mem_cons_of_mem _ (List.mem_cons_of_mem _ he'))) byx hfyx
    refine ⟨out, ?_, ?_, hfout⟩
    · rw [drawEdges_cons, hby1]
      simp only
      rw [drawEdges_cons, hbyx]
      exact hout
    · rw [drawEdges_cons, hbx1]
      simp only
      rw [drawEdges_cons, hbxy, ← heq]
      exact hout
  | trans h₁₂ _ ih₁ ih₂ =>
    intro hv buf hbuf
    obtain ⟨out, h1, h2, hf⟩ := ih₁ hv buf hbuf
    obtain ⟨out', h2', h3, -⟩ := ih₂ (fun e he => hv e (h₁₂.mem_iff.2 he)) buf hbuf
    rw [h2] at h2'
    cases h2'
    exact ⟨out, h1, h3, hf⟩

/-- The label loop on a frame never faults and returns a frame. -/
theorem drawLabels_frame (angle : ℝ) :
    ∀ (cs : List Vec3) (i : Nat) (buf : Buffer), IsFrame buf →
      ∃ out, drawLabels angle i cs buf = .ok out ∧ IsFrame out := by
  intro cs
  induction cs with
  | nil => intro i buf hbuf; exact ⟨buf, rfl, hbuf⟩
  | cons c rest ih =>
    intro i buf hbuf
    rw [drawLabels]
    split
    · exact ih (i + 1) buf hbuf
    · obtain ⟨mid, hmid, hfmid, -⟩ := putPixel_frame hbuf (project (rotateFrame c angle)).1
        (project (rotateFrame c angle)).2.1 (faceLabel i)
      rw [hmid]
      exact ih (i + 1) mid hfmid

theorem vertices_length : vertices.length = 12 := by
  simp [vertices, rawVertices]

theorem vertices_some (i : Nat) (h : i < 12) : ∃ a, vertices[i]? = some a := by
  have hlt : i < vertices.length := by rw [vertices_length]; exact h
  exact ⟨vertices[i], List.getElem?_eq_getElem hlt⟩

/-- Filling `faceCenters` never indexes `vertices` out of range. -/
theorem faceCentersOf_ok :
    ∀ l : List Face, (∀ f ∈ l, f.v0 < 12 ∧ f.v1 < 12 ∧ f.v2 < 12) →
      ∃ cs, faceCentersOf l = .ok cs ∧ cs.length = l.length := by
  intro l
  induction l with
  | nil => intro _; exact ⟨[], rfl, rfl⟩
  | cons f rest ih =>
    intro hv
    obtain ⟨h0, h1, h2⟩ := hv f (List.mem_cons_self _ _)
    obtain ⟨cs, hcs, hlen⟩ := ih (fun g hg => hv g (List.mem_cons_of_mem _ hg))
    obtain ⟨a, ha⟩ := vertices_some f.v0 h0
    obtain ⟨b, hb⟩ := vertices_some f.v1 h1
    obtain ⟨c, hc⟩ := vertices_some f.v2 h2
    refine ⟨⟨(a.x + b.x + c.x) / 3.0, (a.y + b.y + c.y) / 3.0, (a.z + b.z + c.z) / 3.0⟩ :: cs,
      ?_, by simp [hlen]⟩
    rw [faceCentersOf]
    simp only [ha, hb, hc, hcs]

theorem faceCenters_ok : ∃ cs, faceCenters = .ok cs ∧ cs.length = 20 := by
  obtain ⟨cs, h, hlen⟩ := faceCentersOf_ok faces
    (fun f hf => (faces_wellformed f hf).2.2.2)
  exact ⟨cs, h, by rw [hlen]; rfl⟩

theorem edgeMap_index_lt : ∀ e ∈ edgeMap, e.1 < 12 ∧ e.2 < 12 := by decide

theorem projVerts_length (angle : ℝ) : (projVerts angle).length = 12 := by
  unfold projVerts
  rw [List.length_map, vertices_length]

theorem projVerts_inGrid (angle : ℝ) :
    ∀ r ∈ projVerts angle, r.2.2 = true → InGrid (r.1, r.2.1) := by
  intro r hr hok
  unfold projVerts at hr
  obtain ⟨v, -, rfl⟩ := List.mem_map.1 hr
  exact project_inGrid _ hok

/-- C16: one frame is a function of the angle alone: for every angle and any
two lists that the range loop over the edge map can produce, drawing all edges
with `'#'` and then all face labels returns (with fuel 80 or more no fault
occurs) the same buffer, a frame. -/
theorem frame_independent_of_edge_order (fuel : Nat) (angle : ℝ)
    (edges₁ edges₂ : List (Nat × Nat)) (hfuel : 80 ≤ fuel)
    (h₁ : RangeOver edgeMap edges₁) (h₂ : RangeOver edgeMap edges₂) :
    ∃ out, frame fuel angle edges₁ = .ok out ∧ frame fuel angle edges₂ = .ok out ∧
      IsFrame out := by
  have hperm : edges₁.Perm edges₂ := by
    apply List.perm_of_nodup_nodup_toFinset_eq h₁.1 h₂.1
    rw [h₁.2, h₂.2]
  have hv : ∀ e ∈ edges₁, e.1 < (projVerts angle).length ∧ e.2 < (projVerts angle).length := by
    intro e he
    rw [projVerts_length]
    apply edgeMap_index_lt
    rw [← h₁.2]
    exact List.mem_toFinset.2 he
  obtain ⟨cs, hcs, -⟩ := faceCenters_ok
  obtain ⟨mid, hm1, hm2, hfmid⟩ :=
    drawEdges_perm hfuel (projVerts_inGrid angle) hperm hv makeBuffer isFrame_makeBuffer
  obtain ⟨out, hout, hfout⟩ := drawLabels_frame angle cs 0 mid hfmid
  refine ⟨out, ?_, ?_, hfout⟩
  · unfold frame
    simp only [hcs, hm1, hout]
  · unfold frame
    simp only [hcs, hm2, hout]

/-- Witness for C16: the angle 0, the edges in lexicographic order and in the
reverse order. -/
theorem frame_independent_of_edge_order_witness :
    RangeOver edgeMap sortedEdges ∧ RangeOver edgeMap sortedEdges.reverse ∧
      ∃ out, frame 80 0 sortedEdges = .ok out ∧ frame 80 0 sortedEdges.reverse = .ok out ∧
        IsFrame out :=
  ⟨by decide, by decide,
    frame_independent_of_edge_order 80 0 sortedEdges sortedEdges.reverse (le_refl 80)
      (by decide) (by decide)⟩

/-- Whatever its arguments, an edge loop that returns keeps the shape. -/
theorem drawEdges_shape (fuel : Nat) (pv : List (Int × Int × Bool)) :
    ∀ (edges : List (Nat × Nat)) (buf out : Buffer),
      drawEdges fuel pv edges buf = .ok out → shape out = shape buf := by
  intro edges
  induction edges with
  | nil => intro buf out h; cases h; rfl
  | cons e rest ih =>
    intro buf out h
    rw [drawEdges] at h
    split at h
    · split at h
      · exact ih buf out h
      · split at h
        · cases h
        · rename_i mid hmid
          rw [ih mid out h]
          exact drawLine_shape _ _ _ _ _ _ _ mid hmid
    · cases h

/-- Whatever its arguments, a label loop that returns keeps the shape. -/
theorem drawLabels_shape (angle : ℝ) :
    ∀ (cs : List Vec3) (i : Nat) (buf out : Buffer),
      drawLabels angle i cs buf = .ok out → shape out = shape buf := by
  intro cs
  induction cs with
  | nil => intro i buf out h; cases h; rfl
  | cons c rest ih =>
    intro i buf out h
    rw [drawLabels] at h
    split at h
    · exact ih (i + 1) buf out h
    · split at h
      · cases h
      · rename_i mid hmid
        rw [ih (i + 1) mid out h]
        exact putPixel_shape _ _ _ _ mid hmid

/-- Every frame that is drawn has 30 rows of 80 glyphs. -/
theorem frame_isFrame (fuel : Nat) (angle : ℝ) (edges : List (Nat × Nat)) (out : Buffer)
    (h : frame fuel angle edges = .ok out) : IsFrame out := by
  unfold frame at h
  split at h
  · cases h
  · split at h
    · cases h
    · rename_i mid hmid
      rw [isFrame_iff_shape, drawLabels_shape angle _ 0 mid out h,
        drawEdges_shape fuel _ edges makeBuffer mid hmid, ← isFrame_iff_shape]
      exact isFrame_makeBuffer

/-- C15: the frame buffer always has exactly 30 rows of exactly 80 characters:
`makeBuffer` returns 30 rows of 80 blanks; `putPixel` and `drawLine` keep the
number of rows and the length of every row for all arguments; on a frame
`putPixel` returns a frame, and so does `drawLine` between `int` endpoints at
distances up to `2^53`; so every frame that is drawn is 30 rows of 80
characters. -/
theorem buffer_shape_invariant :
    makeBuffer = List.replicate 30 (List.replicate 80 ' ') ∧
      (∀ buf x y ch out, putPixel buf x y ch = .ok out → shape out = shape buf) ∧
      (∀ fuel buf x0 y0 x1 y1 ch out,
        drawLine fuel buf x0 y0 x1 y1 ch = .ok out → shape out = shape buf) ∧
      (∀ buf x y ch, IsFrame buf → ∃ out, putPixel buf x y ch = .ok out ∧ IsFrame out) ∧
      (∀ buf x0 y0 x1 y1 ch extra, IsFrame buf →
        IsInt64 x0 → IsInt64 y0 → IsInt64 x1 → IsInt64 y1 →
        |x1 - x0| ≤ 2 ^ 53 → |y1 - y0| ≤ 2 ^ 53 →
        ∃ out, drawLine (lineFuel x0 y0 x1 y1 + extra) buf x0 y0 x1 y1 ch = .ok out ∧
          IsFrame out) ∧
      (∀ fuel angle edges out, frame fuel angle edges = .ok out → IsFrame out) := by
  refine ⟨makeBuffer_eq, putPixel_shape, drawLine_shape, ?_, ?_, frame_isFrame⟩
  · intro buf x y ch hbuf
    obtain ⟨out, h1, h2, -⟩ := putPixel_frame hbuf x y ch
    exact ⟨out, h1, h2⟩
  · intro buf x0 y0 x1 y1 ch extra hbuf hx0 hy0 hx1 hy1 hdx hdy
    obtain ⟨_, out, -, h1, h2, -⟩ :=
      drawLine_frame hbuf x0 y0 x1 y1 ch extra hx0 hy0 hx1 hy1 hdx hdy
    exact ⟨out, h1, h2⟩

/-- Witness for C15: plotting and drawing on a fresh buffer. -/
theorem buffer_shape_invariant_witness :
    IsFrame makeBuffer ∧
      (∃ out, putPixel makeBuffer 1 1 '1' = .ok out ∧ IsFrame out) ∧
      ∃ out, drawLine (lineFuel 2 3 7 1 + 0) makeBuffer 2 3 7 1 '#' = .ok out ∧ IsFrame out :=
  ⟨by decide, buffer_shape_invariant.2.2.2.1 makeBuffer 1 1 '1' (by decide),
    buffer_shape_invariant.2.2.2.2.1 makeBuffer 2 3 7 1 '#' 0 (by decide) (by decide)
      (by decide) (by decide) (by decide) (by decide) (by decide)⟩

end DiceAnim
